import Mathlib

/-!
# Verification of the Roadroller compression engine (src/index.mjs)

This file is a shallow embedding, in Lean 4, of the core compression engine of
the Roadroller repository: the rANS coder (`AnsEncoder` / `AnsDecoder`), the
adaptive direct context model (`DirectContextModel`), the generic compression
and decompression drivers (`compressWithModel` / `decompressWithModel`), the
parameter optimizer (`Packer.optimize`) and `defaultSparseSelectors`.

Modelling conventions:
* JavaScript numbers in the engine's hot paths only ever hold integers small
  enough that every `|0`, `<<`, `>>`, `&`, `%` coincides with exact integer
  arithmetic; they are embedded as `ℕ`/`ℤ` with explicit `2 ^ k` scaling.
  `x | 0` (truncation toward zero) is `Int.tdiv`, `x >> k` on an int32 is
  floor division by `2 ^ k` (`Int.ediv` for the positive divisors used here),
  `x & (2^k - 1)` on an int32 is `Int.emod _ (2^k)`.
* `throw` of the source is `Except.error` with the source's message.
* The one floating-point quantity inside the integer data path,
  `modelBaseCount = 1 / modelRecipBaseCount`, is embedded exactly:
  `delta / (count + 1/M) | 0` is the rational truncation
  `Int.tdiv (delta * M) (count * M + 1)`.  (The float computation agrees with
  the exact one for every `modelRecipBaseCount` used by the engine; the
  range proof below only needs `count * M + 1 > M`, which both satisfy.)
* Loops whose termination is a consequence of arithmetic invariants
  (`while (state >= maxState)`, `while (temperature > target)`) are defined by
  well-founded recursion on exactly that invariant.
* The decoder-side sentinel loop of `decompressWithModel` (`do … while`) can
  genuinely diverge on adversarial streams, so its embedding takes an explicit
  fuel bound; the round-trip theorem shows `input.length` fuel suffices.
-/

namespace Roadroller

/-- One `if (x > y * 2^k) y *= 2^k, n += k` step of the source's `ceilLog2`. -/
def ceilLog2Step (k x : ℕ) (p : ℕ × ℕ) : ℕ × ℕ :=
  if x > p.1 * 2 ^ k then (p.1 * 2 ^ k, p.2 + k) else p

/-- Embedded from `src/index.mjs` `ceilLog2`: returns
`clamp(1, ceil(log2(x/y)), 32)` by a chain of comparisons against
`y·2^16, y·2^8, y·2^4, y·2^2, y·2^1` (the source computes with exact small
integers, so the translation is direct). -/
def ceilLog2 (x : ℕ) (y : ℕ := 1) : ℕ :=
  (ceilLog2Step 1 x (ceilLog2Step 2 x (ceilLog2Step 4 x
    (ceilLog2Step 8 x (ceilLog2Step 16 x (y, 1)))))).2

theorem ceilLog2Step_inv (k x y : ℕ) (p : ℕ × ℕ) (hp : p.1 = y * 2 ^ (p.2 - 1))
    (hn : 1 ≤ p.2) (hx : x ≤ p.1 * 2 ^ (2 * k)) :
    (ceilLog2Step k x p).1 = y * 2 ^ ((ceilLog2Step k x p).2 - 1) ∧
      1 ≤ (ceilLog2Step k x p).2 ∧ x ≤ (ceilLog2Step k x p).1 * 2 ^ k := by
  have hkk : 2 * k = k + k := by omega
  unfold ceilLog2Step
  split_ifs with h
  · refine ⟨?_, by omega, ?_⟩
    · have he : p.2 + k - 1 = (p.2 - 1) + k := by omega
      simp only [hp, he]
      rw [mul_assoc, ← pow_add]
    · calc x ≤ p.1 * 2 ^ (2 * k) := hx
        _ = p.1 * 2 ^ k * 2 ^ k := by rw [mul_assoc, ← pow_add, hkk]
  · exact ⟨hp, hn, by omega⟩

/-- `x ≤ y · 2^(ceilLog2 x y)` whenever `x` fits in the clamp range: the key
property of `ceilLog2` used by the coder (`outSymbols ≤ 2^(ceilLog2 outSymbols)`). -/
theorem ceilLog2_le (x y : ℕ) (hx : x ≤ y * 2 ^ 32) :
    x ≤ y * 2 ^ ceilLog2 x y := by
  have h0 : (y, 1).1 = y * 2 ^ ((y, 1).2 - 1) ∧ 1 ≤ (y, 1).2 ∧ x ≤ (y, 1).1 * 2 ^ (2 * 16) := by
    simpa using hx
  have h16 := ceilLog2Step_inv 16 x y (y, 1) h0.1 h0.2.1 h0.2.2
  have h8 := ceilLog2Step_inv 8 x y _ h16.1 h16.2.1 h16.2.2
  have h4 := ceilLog2Step_inv 4 x y _ h8.1 h8.2.1 h8.2.2
  have h2 := ceilLog2Step_inv 2 x y _ h4.1 h4.2.1 h4.2.2
  have h1 := ceilLog2Step_inv 1 x y _ h2.1 h2.2.1 h2.2.2
  obtain ⟨he, hn, hle⟩ := h1
  unfold ceilLog2
  refine le_trans hle ?_
  rw [he, mul_assoc, ← pow_add]
  exact le_of_eq (by rw [Nat.sub_add_cancel hn])

theorem ceilLog2_pos (x y : ℕ) : 1 ≤ ceilLog2 x y := by
  have h : ∀ k (p : ℕ × ℕ), 1 ≤ p.2 → 1 ≤ (ceilLog2Step k x p).2 := by
    intro k p hp
    unfold ceilLog2Step
    split_ifs <;> omega
  exact h 1 _ (h 2 _ (h 4 _ (h 8 _ (h 16 _ le_rfl))))

/-- `ANS_BITS` of the source. -/
def ANS_BITS : ℕ := 28

/-- The rANS parameter record consumed by `AnsEncoder` / `AnsDecoder`
(`{ outBits, precision }`): `outBits` is the number of output bits, or
`-(number of output symbols)` when negative. -/
structure AnsParams where
  outBits : ℤ
  precision : ℕ

/-- `outBits < 0 ? -outBits : 1 << outBits` — the output alphabet size. -/
def AnsParams.outSymbols (p : AnsParams) : ℕ :=
  if p.outBits < 0 then (-p.outBits).toNat else 2 ^ p.outBits.toNat

/-- Renormalization limit `1 << (ANS_BITS - ceilLog2(outSymbols))`; the initial
encoder state, and the decoder's refill threshold. -/
def AnsParams.renormLimit (p : AnsParams) : ℕ :=
  2 ^ (ANS_BITS - ceilLog2 p.outSymbols)

/-- `stateShift = ANS_BITS - ceilLog2(outSymbols) - (precision + 1)`.
(ℕ subtraction; the documented parameter limits make this nonnegative, which
the theorems assume as `precision + 1 + ceilLog2 outSymbols ≤ 28`.) -/
def AnsParams.stateShift (p : AnsParams) : ℕ :=
  ANS_BITS - ceilLog2 p.outSymbols - (p.precision + 1)

/-- The encoder's renormalization loop
`while (state >= maxState) { buf.push(state % outSymbols); state = (state / outSymbols) | 0; }`.
The returned digit list is in *decoder read order* (reverse emission order),
matching the final `buf.reverse()` of `finish`.  The loop terminates because
each iteration divides the state by `outSymbols ≥ 2`; the dite guard carries
exactly the facts making that measure decrease. -/
def encRenorm (b maxState s : ℕ) : ℕ × List ℕ :=
  if h : 2 ≤ b ∧ 1 ≤ maxState ∧ maxState ≤ s then
    let r := encRenorm b maxState (s / b)
    (r.1, r.2 ++ [s % b])
  else (s, [])
termination_by s
decreasing_by exact Nat.div_lt_self (Nat.lt_of_lt_of_le h.2.1 h.2.2) h.1

/-- One iteration of the loop body of `AnsEncoder.finish` for a buffered
`(bit, predictedFreq)` pair: probability-to-interval mapping
`prob = (predictedFreq << 1) | 1`, `bit=1 ↦ start=0, size=prob`,
`bit=0 ↦ start=prob, size=2^(precision+1) - prob`, renormalization, and the
state transform `state = ((state / size | 0) << probScale) + state % size + start`.
Returns the new state together with this step's output digits in decoder read
order. -/
def ansTransform (precision b shift : ℕ) (p : ℕ × ℕ) (s : ℕ) : ℕ × List ℕ :=
  let probScale := precision + 1
  let prob := 2 * p.2 + 1
  let start := if p.1 = 0 then prob else 0
  let size := if p.1 = 0 then 2 ^ probScale - prob else prob
  let r := encRenorm b (size * b * 2 ^ shift) s
  ((r.1 / size) * 2 ^ probScale + r.1 % size + start, r.2)

/-- Structural form of `AnsEncoder.finish`'s replay: a right fold over the
buffered pairs (so the head pair is encoded *last*, i.e. the buffer is
replayed in reverse), with each step's digits prepended — which is exactly the
decoder read order produced by the source's final `buf.reverse()`. -/
def ansEncodeList (precision b shift L : ℕ) (input : List (ℕ × ℕ)) : ℕ × List ℕ :=
  input.foldr
    (fun p sb =>
      let t := ansTransform precision b shift p sb.1
      (t.1, t.2 ++ sb.2))
    (L, [])

/-- The loop of `AnsEncoder.finish` exactly as the source runs it: over the
*reversed* buffered input, pushing emission-order digits onto a growing
buffer, and failing with `'ANSEncoder.finish: state overflow'` as soon as a
transformed state reaches `2^31` (`0x80000000`). -/
def ansFinishGo (precision b shift : ℕ) :
    List (ℕ × ℕ) → ℕ → List ℕ → Except String (ℕ × List ℕ)
  | [], s, buf => Except.ok (s, buf)
  | p :: rest, s, buf =>
    let t := ansTransform precision b shift p s
    if t.1 ≥ 2 ^ 31 then Except.error "ANSEncoder.finish: state overflow"
    else ansFinishGo precision b shift rest t.1 (buf ++ t.2.reverse)

/-- `AnsEncoder.finish`: initial state `1 << (ANS_BITS - ceilLog2(outSymbols))`,
replay of the buffered `(bit, predictedFreq)` pairs in reverse, final
`buf.reverse()`; returns `{state, buf}` or the overflow error. -/
def ansFinish (ap : AnsParams) (input : List (ℕ × ℕ)) : Except String (ℕ × List ℕ) :=
  (ansFinishGo ap.precision ap.outSymbols ap.stateShift input.reverse ap.renormLimit []).map
    (fun r => (r.1, r.2.reverse))

/-- `AnsEncoder.writeBit`'s validation: the bit must be 0 or 1 and the
predicted frequency an integer in `[0, 2^precision)` (integrality is inherent
in `ℕ`). -/
def writeBitCheck (precision : ℕ) (p : ℕ × ℕ) : Except String Unit :=
  if p.1 ≠ 0 ∧ p.1 ≠ 1 then Except.error "AnsEncoder.writeBit: bad bit"
  else if p.2 ≥ 2 ^ precision then Except.error "AnsEncoder.writeBit: bad predictedFreq"
  else Except.ok ()

/-- The decoder's refill loop
`while (state < renormLimit) { state = state * outSymbols + buf[offset++] % outSymbols }`,
with the out-of-bounds error when the buffer is exhausted.  The cursor
`offset` is embedded by consuming the remaining buffer list. -/
def decRenorm (b L : ℕ) (s : ℤ) : List ℕ → Except String (ℤ × List ℕ)
  | [] =>
    if s < (L : ℤ) then Except.error "AnsDecoder.readBit: out of buffer bounds"
    else Except.ok (s, [])
  | d :: rest =>
    if s < (L : ℤ) then decRenorm b L (s * b + (d % b : ℕ)) rest
    else Except.ok (s, d :: rest)

/-- `AnsDecoder.readBit`: recover `rem = state & (2^(precision+1) - 1)`, decode
`bit = rem < prob`, invert the interval transform, then refill.  The state is
carried as `ℤ` because the JS code would compute a negative intermediate state
on corrupt streams (never on valid ones, as proved below). -/
def ansReadBit (precision b L : ℕ) (f : ℕ) (s : ℤ) (buf : List ℕ) :
    Except String (ℕ × ℤ × List ℕ) :=
  let probScale := precision + 1
  let prob : ℤ := 2 * f + 1
  let rem : ℤ := s % (2 ^ probScale)
  let bit : ℕ := if rem < prob then 1 else 0
  let start : ℤ := if rem < prob then 0 else prob
  let size : ℤ := if rem < prob then prob else 2 ^ probScale - prob
  (decRenorm b L (size * (s / 2 ^ probScale) + rem - start) buf).map
    (fun r => (bit, r.1, r.2))

/-! ## Inversion of the rANS coder

The following lemmas prove that `AnsDecoder.readBit` is the exact inverse of
one replay step of `AnsEncoder.finish`, by first inverting the
renormalization loops and then the interval transform. -/

theorem decRenorm_of_ge (b L : ℕ) (s : ℤ) (hs : ¬s < (L : ℤ)) (rest : List ℕ) :
    decRenorm b L s rest = Except.ok (s, rest) := by
  cases rest <;> simp [decRenorm, hs]

theorem encRenorm_fst_lt (b m : ℕ) (hb : 2 ≤ b) (hm : 1 ≤ m) (s : ℕ) :
    (encRenorm b m s).1 < m := by
  induction s using Nat.strong_induction_on with
  | _ s ih =>
    rcases le_or_lt m s with hms | hms
    · rw [encRenorm, dif_pos ⟨hb, hm, hms⟩]
      exact ih (s / b) (Nat.div_lt_self (Nat.lt_of_lt_of_le hm hms) hb)
    · rw [encRenorm, dif_neg (by omega)]
      exact hms

theorem encRenorm_fst_ge (b m : ℕ) (hb : 2 ≤ b) (hm : 1 ≤ m) (s : ℕ) (hms : m ≤ s) :
    m / b ≤ (encRenorm b m s).1 := by
  induction s using Nat.strong_induction_on with
  | _ s ih =>
    rw [encRenorm, dif_pos ⟨hb, hm, hms⟩]
    rcases le_or_lt m (s / b) with hms' | hms'
    · exact ih (s / b) (Nat.div_lt_self (Nat.lt_of_lt_of_le hm hms) hb) hms'
    · have : (encRenorm b m (s / b)) = (s / b, []) := by
        rw [encRenorm, dif_neg (by omega)]
      rw [this]
      exact Nat.div_le_div_right hms

/-- Reading back one renormalization chain that started *below* the decoder
refill threshold `L` is a no-op continuation: the digits are consumed and the
pre-renormalization state restored, leaving the rest of the buffer. -/
theorem decRenorm_encRenorm_cont (b m L : ℕ) (hb : 2 ≤ b) (hm : 1 ≤ m) :
    ∀ s, s < L → ∀ rest,
      decRenorm b L ((encRenorm b m s).1 : ℤ) ((encRenorm b m s).2 ++ rest) =
        decRenorm b L (s : ℤ) rest := by
  intro s
  induction s using Nat.strong_induction_on with
  | _ s ih =>
    intro hsL rest
    rcases le_or_lt m s with hms | hms
    · rw [encRenorm, dif_pos ⟨hb, hm, hms⟩]
      simp only [List.append_assoc, List.cons_append, List.nil_append]
      have hdiv : s / b < s := Nat.div_lt_self (Nat.lt_of_lt_of_le hm hms) hb
      rw [ih (s / b) hdiv (lt_of_le_of_lt (Nat.div_le_self s b) hsL) (s % b :: rest)]
      have hdL : (↑(s / b) : ℤ) < (L : ℤ) := by
        exact_mod_cast lt_of_le_of_lt (Nat.div_le_self s b) hsL
      rw [decRenorm, if_pos hdL]
      congr 1
      have hmod : s % b % b = s % b := Nat.mod_mod_of_dvd s (dvd_refl b)
      rw [hmod]
      have := Nat.div_add_mod s b
      push_cast
      nlinarith [Nat.div_add_mod s b]
    · rw [encRenorm, dif_neg (by omega)]
      simp

/-- Reading back one full renormalization chain that started in the coder
interval `[L, b·L)` stops exactly at the original state. -/
theorem decRenorm_encRenorm (b m L : ℕ) (hb : 2 ≤ b) (hm : 1 ≤ m) (s : ℕ)
    (hsL : L ≤ s) (hsU : s < b * L) (rest : List ℕ) :
    decRenorm b L ((encRenorm b m s).1 : ℤ) ((encRenorm b m s).2 ++ rest) =
      Except.ok ((s : ℤ), rest) := by
  have hnotlt : ¬((s : ℤ) < (L : ℤ)) := by exact_mod_cast not_lt.mpr hsL
  rcases le_or_lt m s with hms | hms
  · rw [encRenorm, dif_pos ⟨hb, hm, hms⟩]
    simp only [List.append_assoc, List.cons_append, List.nil_append]
    have hdivL : s / b < L := Nat.div_lt_of_lt_mul hsU
    rw [decRenorm_encRenorm_cont b m L hb hm (s / b)
      (Nat.div_lt_of_lt_mul hsU) (s % b :: rest)]
    have hdL : (↑(s / b) : ℤ) < (L : ℤ) := by exact_mod_cast hdivL
    rw [decRenorm, if_pos hdL]
    have hmod : s % b % b = s % b := Nat.mod_mod_of_dvd s (dvd_refl b)
    rw [hmod]
    have heq : ((s / b : ℕ) : ℤ) * (b : ℤ) + ((s % b : ℕ) : ℤ) = (s : ℤ) := by
      push_cast
      nlinarith [Nat.div_add_mod s b]
    rw [heq]
    exact decRenorm_of_ge b L s hnotlt rest
  · rw [encRenorm, dif_neg (by omega)]
    simpa using decRenorm_of_ge b L s hnotlt rest

theorem encRenorm_eq_of_lt (b m s : ℕ) (hms : s < m) : encRenorm b m s = (s, []) := by
  rw [encRenorm, dif_neg (by omega)]

/-- Bounds on the renormalized state entering the interval transform: with
`maxState = size · b · 2^shift` and an incoming state ≥ `L`, the
post-renormalization state lies in `[size · 2^shift, maxState)`. -/
theorem ansStep_state_bounds (precision b shift L size s : ℕ) (hb : 2 ≤ b)
    (hL : L = 2 ^ (precision + 1) * 2 ^ shift) (hsize : 1 ≤ size)
    (hsizeU : size ≤ 2 ^ (precision + 1)) (hs1 : L ≤ s) :
    size * 2 ^ shift ≤ (encRenorm b (size * b * 2 ^ shift) s).1 ∧
      (encRenorm b (size * b * 2 ^ shift) s).1 < size * b * 2 ^ shift := by
  have hm : 1 ≤ size * b * 2 ^ shift := Nat.one_le_iff_ne_zero.mpr (by positivity)
  constructor
  · rcases le_or_lt (size * b * 2 ^ shift) s with hms | hms
    · have h := encRenorm_fst_ge b (size * b * 2 ^ shift) hb hm s hms
      have heq : size * b * 2 ^ shift / b = size * 2 ^ shift := by
        rw [show size * b * 2 ^ shift = size * 2 ^ shift * b by ring]
        exact Nat.mul_div_cancel _ (by omega)
      rwa [heq] at h
    · rw [encRenorm_eq_of_lt b _ s hms]
      calc size * 2 ^ shift ≤ 2 ^ (precision + 1) * 2 ^ shift :=
            Nat.mul_le_mul_right _ hsizeU
        _ = L := hL.symm
        _ ≤ s := hs1
  · exact encRenorm_fst_lt b _ hb hm s

theorem int_decompose_emod (a r q : ℕ) (hr : r < q) :
    ((a * q + r : ℕ) : ℤ) % (q : ℤ) = (r : ℤ) := by
  push_cast
  rw [add_comm, mul_comm]
  rw [Int.add_mul_emod_self_left]
  exact Int.emod_eq_of_lt (by positivity) (by exact_mod_cast hr)

theorem int_decompose_ediv (a r q : ℕ) (hr : r < q) :
    ((a * q + r : ℕ) : ℤ) / (q : ℤ) = (a : ℤ) := by
  have hq : (q : ℤ) ≠ 0 := by
    have : 0 < q := by omega
    exact_mod_cast this.ne.symm
  push_cast
  rw [add_comm, mul_comm]
  rw [Int.add_mul_ediv_left _ _ hq]
  rw [Int.ediv_eq_zero_of_lt (by positivity) (by exact_mod_cast hr)]
  ring

/-- Core facts about one interval-transform step with interval `[start, start+size)`
of total scale `2^(precision+1)`: the transformed state stays in the coder
interval `[L, b·L)`, its low `precision+1` bits and high bits recover
`state % size + start` and `state / size`, and the digits emitted by the
renormalization are exactly read back by the decoder refill. -/
theorem ansStep_core (precision b shift L start size s : ℕ) (hb : 2 ≤ b)
    (hL : L = 2 ^ (precision + 1) * 2 ^ shift) (hsize : 1 ≤ size)
    (hss : start + size ≤ 2 ^ (precision + 1)) (hs1 : L ≤ s) (hs2 : s < b * L)
    (rest : List ℕ) :
    L ≤ (encRenorm b (size * b * 2 ^ shift) s).1 / size * 2 ^ (precision + 1) +
        (encRenorm b (size * b * 2 ^ shift) s).1 % size + start ∧
    (encRenorm b (size * b * 2 ^ shift) s).1 / size * 2 ^ (precision + 1) +
        (encRenorm b (size * b * 2 ^ shift) s).1 % size + start < b * L ∧
    (((encRenorm b (size * b * 2 ^ shift) s).1 / size * 2 ^ (precision + 1) +
        (encRenorm b (size * b * 2 ^ shift) s).1 % size + start : ℕ) : ℤ) %
        ((2 : ℤ) ^ (precision + 1)) =
      (((encRenorm b (size * b * 2 ^ shift) s).1 % size + start : ℕ) : ℤ) ∧
    (((encRenorm b (size * b * 2 ^ shift) s).1 / size * 2 ^ (precision + 1) +
        (encRenorm b (size * b * 2 ^ shift) s).1 % size + start : ℕ) : ℤ) /
        ((2 : ℤ) ^ (precision + 1)) =
      (((encRenorm b (size * b * 2 ^ shift) s).1 / size : ℕ) : ℤ) ∧
    decRenorm b L ((encRenorm b (size * b * 2 ^ shift) s).1 : ℤ)
        ((encRenorm b (size * b * 2 ^ shift) s).2 ++ rest) =
      Except.ok ((s : ℤ), rest) := by
  obtain ⟨hlb, hub⟩ := ansStep_state_bounds precision b shift L size s hb hL hsize
    (by omega) hs1
  set s2 := (encRenorm b (size * b * 2 ^ shift) s).1 with hs2def
  have hmod : s2 % size < size := Nat.mod_lt s2 (by omega)
  have hrem : s2 % size + start < 2 ^ (precision + 1) := by omega
  have hshape : s2 / size * 2 ^ (precision + 1) + s2 % size + start =
      s2 / size * 2 ^ (precision + 1) + (s2 % size + start) := by ring
  have hcastq : ((2 : ℤ) ^ (precision + 1)) = ((2 ^ (precision + 1) : ℕ) : ℤ) := by
    push_cast; ring
  refine ⟨?_, ?_, ?_, ?_, ?_⟩
  · have hdivge : 2 ^ shift ≤ s2 / size := by
      rw [Nat.le_div_iff_mul_le (show 0 < size by omega)]
      calc 2 ^ shift * size = size * 2 ^ shift := by ring
        _ ≤ s2 := hlb
    calc L = 2 ^ (precision + 1) * 2 ^ shift := hL
      _ ≤ 2 ^ (precision + 1) * (s2 / size) := Nat.mul_le_mul_left _ hdivge
      _ = s2 / size * 2 ^ (precision + 1) := by ring
      _ ≤ _ := by omega
  · have hdivlt : s2 / size < b * 2 ^ shift := by
      apply Nat.div_lt_of_lt_mul
      calc s2 < size * b * 2 ^ shift := hub
        _ = size * (b * 2 ^ shift) := by ring
    have hstep : s2 / size * 2 ^ (precision + 1) + s2 % size + start <
        (s2 / size + 1) * 2 ^ (precision + 1) := by nlinarith
    calc s2 / size * 2 ^ (precision + 1) + s2 % size + start <
          (s2 / size + 1) * 2 ^ (precision + 1) := hstep
      _ ≤ b * 2 ^ shift * 2 ^ (precision + 1) := Nat.mul_le_mul_right _ (by omega)
      _ = b * L := by rw [hL]; ring
  · rw [hshape, hcastq]
    exact int_decompose_emod (s2 / size) (s2 % size + start) (2 ^ (precision + 1)) hrem
  · rw [hshape, hcastq]
    exact int_decompose_ediv (s2 / size) (s2 % size + start) (2 ^ (precision + 1)) hrem
  · exact decRenorm_encRenorm b (size * b * 2 ^ shift) L hb
      (Nat.one_le_iff_ne_zero.mpr (by positivity)) s hs1 hs2 rest

theorem ansTransform_bit0 (precision b shift f s : ℕ) :
    ansTransform precision b shift (0, f) s =
      ((encRenorm b ((2 ^ (precision + 1) - (2 * f + 1)) * b * 2 ^ shift) s).1 /
          (2 ^ (precision + 1) - (2 * f + 1)) * 2 ^ (precision + 1) +
        (encRenorm b ((2 ^ (precision + 1) - (2 * f + 1)) * b * 2 ^ shift) s).1 %
          (2 ^ (precision + 1) - (2 * f + 1)) + (2 * f + 1),
        (encRenorm b ((2 ^ (precision + 1) - (2 * f + 1)) * b * 2 ^ shift) s).2) := rfl

theorem ansTransform_bit1 (precision b shift f s : ℕ) :
    ansTransform precision b shift (1, f) s =
      ((encRenorm b ((2 * f + 1) * b * 2 ^ shift) s).1 / (2 * f + 1) * 2 ^ (precision + 1) +
        (encRenorm b ((2 * f + 1) * b * 2 ^ shift) s).1 % (2 * f + 1) + 0,
        (encRenorm b ((2 * f + 1) * b * 2 ^ shift) s).2) := rfl

/-- One full encoder step (`ansTransform`) followed by `AnsDecoder.readBit`
with the same predicted frequency recovers the encoded bit and the previous
encoder state, consuming exactly this step's output digits; and the stepped
state stays inside the coder interval `[L, b·L)`. -/
theorem ansTransform_readBit (precision b shift L : ℕ) (hb : 2 ≤ b)
    (hL : L = 2 ^ (precision + 1) * 2 ^ shift) (bit f : ℕ) (hbit : bit ≤ 1)
    (hf : f < 2 ^ precision) (s : ℕ) (hs1 : L ≤ s) (hs2 : s < b * L) (rest : List ℕ) :
    L ≤ (ansTransform precision b shift (bit, f) s).1 ∧
      (ansTransform precision b shift (bit, f) s).1 < b * L ∧
      ansReadBit precision b L f ((ansTransform precision b shift (bit, f) s).1 : ℤ)
          ((ansTransform precision b shift (bit, f) s).2 ++ rest) =
        Except.ok (bit, ((s : ℤ), rest)) := by
  have hps2 : 2 ^ (precision + 1) = 2 * 2 ^ precision := by rw [pow_succ]; ring
  rcases Nat.le_one_iff_eq_zero_or_eq_one.mp hbit with h0 | h1
  · subst h0
    have hsize1 : 1 ≤ 2 ^ (precision + 1) - (2 * f + 1) := by omega
    have hss : (2 * f + 1) + (2 ^ (precision + 1) - (2 * f + 1)) ≤ 2 ^ (precision + 1) := by
      omega
    obtain ⟨c1, c2, c3, c4, c5⟩ := ansStep_core precision b shift L (2 * f + 1)
      (2 ^ (precision + 1) - (2 * f + 1)) s hb hL hsize1 hss hs1 hs2 rest
    set size := 2 ^ (precision + 1) - (2 * f + 1) with hsz
    set s2 := (encRenorm b (size * b * 2 ^ shift) s).1 with hs2d
    rw [ansTransform_bit0]
    refine ⟨c1, c2, ?_⟩
    simp only [ansReadBit]
    rw [c3, c4]
    have hmlt : s2 % size < size := Nat.mod_lt s2 (by omega)
    have hcond : ¬(((s2 % size + (2 * f + 1) : ℕ) : ℤ) < 2 * (f : ℤ) + 1) := by
      push_cast
      omega
    rw [if_neg hcond, if_neg hcond, if_neg hcond]
    have hrestore : ((2 : ℤ) ^ (precision + 1) - (2 * (f : ℤ) + 1)) *
        ((s2 / size : ℕ) : ℤ) + ((s2 % size + (2 * f + 1) : ℕ) : ℤ) -
        (2 * (f : ℤ) + 1) = ((s2 : ℕ) : ℤ) := by
      have hsizecast : ((2 : ℤ) ^ (precision + 1) - (2 * (f : ℤ) + 1)) = ((size : ℕ) : ℤ) := by
        rw [hsz]
        push_cast [Nat.cast_sub (by omega : 2 * f + 1 ≤ 2 ^ (precision + 1))]
        ring
      rw [hsizecast]
      push_cast
      nlinarith [Nat.div_add_mod s2 size]
    rw [hrestore, c5]
    rfl
  · subst h1
    have hsize1 : 1 ≤ 2 * f + 1 := by omega
    have hss : 0 + (2 * f + 1) ≤ 2 ^ (precision + 1) := by omega
    obtain ⟨c1, c2, c3, c4, c5⟩ := ansStep_core precision b shift L 0
      (2 * f + 1) s hb hL hsize1 hss hs1 hs2 rest
    set s2 := (encRenorm b ((2 * f + 1) * b * 2 ^ shift) s).1 with hs2d
    rw [ansTransform_bit1]
    refine ⟨by simpa using c1, by simpa using c2, ?_⟩
    simp only [ansReadBit]
    have c3x : (((s2 / (2 * f + 1) * 2 ^ (precision + 1) + s2 % (2 * f + 1) + 0 : ℕ)) : ℤ) %
        ((2 : ℤ) ^ (precision + 1)) = ((s2 % (2 * f + 1) + 0 : ℕ) : ℤ) := c3
    have c4x : (((s2 / (2 * f + 1) * 2 ^ (precision + 1) + s2 % (2 * f + 1) + 0 : ℕ)) : ℤ) /
        ((2 : ℤ) ^ (precision + 1)) = ((s2 / (2 * f + 1) : ℕ) : ℤ) := c4
    rw [c3x, c4x]
    have hmlt : s2 % (2 * f + 1) < 2 * f + 1 := Nat.mod_lt s2 (by omega)
    have hcond : (((s2 % (2 * f + 1) + 0 : ℕ) : ℤ) < 2 * (f : ℤ) + 1) := by
      have hc : ((2 : ℤ) * (f : ℤ) + 1) = ((2 * f + 1 : ℕ) : ℤ) := by push_cast; ring
      rw [hc]
      exact_mod_cast (show s2 % (2 * f + 1) + 0 < 2 * f + 1 by omega)
    rw [if_pos hcond, if_pos hcond, if_pos hcond]
    have hrestore : (2 * (f : ℤ) + 1) * ((s2 / (2 * f + 1) : ℕ) : ℤ) +
        ((s2 % (2 * f + 1) + 0 : ℕ) : ℤ) - 0 = ((s2 : ℕ) : ℤ) := by
      push_cast
      nlinarith [Nat.div_add_mod s2 (2 * f + 1)]
    rw [hrestore, c5]
    rfl

/-- The interval transform applied through `ansTransform` with a valid pair
keeps the state in `[L, b·L)`, and `readBit` inverts it (projection of
`ansTransform_readBit` packaged for arbitrary pairs). -/
theorem ansTransform_bounds (precision b shift L : ℕ) (hb : 2 ≤ b)
    (hL : L = 2 ^ (precision + 1) * 2 ^ shift) (p : ℕ × ℕ) (hp : p.1 ≤ 1 ∧ p.2 < 2 ^ precision)
    (s : ℕ) (hs1 : L ≤ s) (hs2 : s < b * L) :
    L ≤ (ansTransform precision b shift p s).1 ∧
      (ansTransform precision b shift p s).1 < b * L := by
  obtain ⟨h1, h2, _⟩ := ansTransform_readBit precision b shift L hb hL p.1 p.2
    hp.1 hp.2 s hs1 hs2 []
  exact ⟨h1, h2⟩

/-- All pairs fed to the coder carry a bit in `{0,1}` and a frequency below
`2^precision` (the `writeBit` contract). -/
def validPairs (precision : ℕ) (l : List (ℕ × ℕ)) : Prop :=
  ∀ p ∈ l, p.1 ≤ 1 ∧ p.2 < 2 ^ precision

/-- State invariant of the structural encoder: the replayed state always stays
in the coder interval `[L, b·L)`. -/
theorem ansEncodeList_bounds (precision b shift L : ℕ) (hb : 2 ≤ b)
    (hL : L = 2 ^ (precision + 1) * 2 ^ shift) (input : List (ℕ × ℕ))
    (hv : validPairs precision input) :
    L ≤ (ansEncodeList precision b shift L input).1 ∧
      (ansEncodeList precision b shift L input).1 < b * L := by
  induction input with
  | nil =>
    constructor
    · exact le_rfl
    · have hL1 : 0 < L := by rw [hL]; positivity
      calc L = 1 * L := by ring
        _ < b * L := (Nat.mul_lt_mul_right hL1).mpr (by omega)
  | cons p tail ih =>
    have htail : validPairs precision tail := fun q hq => hv q (List.mem_cons_of_mem p hq)
    obtain ⟨ih1, ih2⟩ := ih htail
    exact ansTransform_bounds precision b shift L hb hL p
      (hv p (List.mem_cons_self p tail)) _ ih1 ih2

/-- Reading one bit from the structural encoding of `p :: tail` recovers `p`'s
bit and leaves exactly the encoding of `tail` (with any buffer continuation). -/
theorem ansEncodeList_cons_readBit (precision b shift L : ℕ) (hb : 2 ≤ b)
    (hL : L = 2 ^ (precision + 1) * 2 ^ shift) (bit f : ℕ) (tail : List (ℕ × ℕ))
    (hbit : bit ≤ 1) (hf : f < 2 ^ precision) (hv : validPairs precision tail)
    (extra : List ℕ) :
    ansReadBit precision b L f ((ansEncodeList precision b shift L ((bit, f) :: tail)).1 : ℤ)
        ((ansEncodeList precision b shift L ((bit, f) :: tail)).2 ++ extra) =
      Except.ok (bit, (((ansEncodeList precision b shift L tail).1 : ℤ),
        (ansEncodeList precision b shift L tail).2 ++ extra)) := by
  obtain ⟨hs1, hs2⟩ := ansEncodeList_bounds precision b shift L hb hL tail hv
  obtain ⟨-, -, h⟩ := ansTransform_readBit precision b shift L hb hL bit f hbit hf
    ((ansEncodeList precision b shift L tail).1) hs1 hs2
    ((ansEncodeList precision b shift L tail).2 ++ extra)
  show ansReadBit precision b L f
      ((ansTransform precision b shift (bit, f) (ansEncodeList precision b shift L tail).1).1 : ℤ)
      ((ansTransform precision b shift (bit, f) (ansEncodeList precision b shift L tail).1).2 ++
        (ansEncodeList precision b shift L tail).2 ++ extra) = _
  rw [List.append_assoc]
  exact h

/-- The pure (no overflow check) form of `AnsEncoder.finish`'s loop. -/
def ansFinishPure (precision b shift : ℕ) :
    List (ℕ × ℕ) → ℕ → List ℕ → ℕ × List ℕ
  | [], s, buf => (s, buf)
  | p :: rest, s, buf =>
    let t := ansTransform precision b shift p s
    ansFinishPure precision b shift rest t.1 (buf ++ t.2.reverse)

theorem ansFinishPure_append (precision b shift : ℕ) (l1 l2 : List (ℕ × ℕ)) :
    ∀ s buf, ansFinishPure precision b shift (l1 ++ l2) s buf =
      ansFinishPure precision b shift l2
        (ansFinishPure precision b shift l1 s buf).1
        (ansFinishPure precision b shift l1 s buf).2 := by
  induction l1 with
  | nil => intro s buf; rfl
  | cons p tail ih =>
    intro s buf
    simp only [List.cons_append, ansFinishPure]
    exact ih _ _

/-- Relation between the source's loop order (reversed input, digits pushed in
emission order, final reverse) and the structural right fold. -/
theorem ansFinishPure_reverse (precision b shift : ℕ) (input : List (ℕ × ℕ)) :
    ∀ s0 buf0, ansFinishPure precision b shift input.reverse s0 buf0 =
      ((input.foldr (fun p sb =>
          let t := ansTransform precision b shift p sb.1
          (t.1, t.2 ++ sb.2)) (s0, ([] : List ℕ))).1,
        buf0 ++ (input.foldr (fun p sb =>
          let t := ansTransform precision b shift p sb.1
          (t.1, t.2 ++ sb.2)) (s0, ([] : List ℕ))).2.reverse) := by
  induction input with
  | nil => intro s0 buf0; simp [ansFinishPure]
  | cons p tail ih =>
    intro s0 buf0
    simp only [List.reverse_cons]
    rw [ansFinishPure_append]
    rw [ih s0 buf0]
    simp only [List.foldr_cons, ansFinishPure, List.reverse_append, List.append_assoc]

/-- On valid pairs with the state in the coder interval, the source loop never
hits the `state overflow` branch and agrees with the pure loop. -/
theorem ansFinishGo_ok (precision b shift L : ℕ) (hb : 2 ≤ b)
    (hL : L = 2 ^ (precision + 1) * 2 ^ shift) (hcap : b * L ≤ 2 ^ 28) :
    ∀ (l : List (ℕ × ℕ)), validPairs precision l → ∀ s buf, L ≤ s → s < b * L →
      ansFinishGo precision b shift l s buf =
        Except.ok (ansFinishPure precision b shift l s buf) := by
  intro l
  induction l with
  | nil => intro _ s buf _ _; rfl
  | cons p tail ih =>
    intro hv s buf hs1 hs2
    obtain ⟨ht1, ht2⟩ := ansTransform_bounds precision b shift L hb hL p
      (hv p (List.mem_cons_self p tail)) s hs1 hs2
    have hlt : ¬((ansTransform precision b shift p s).1 ≥ 2 ^ 31) := by
      have : (ansTransform precision b shift p s).1 < 2 ^ 28 := lt_of_lt_of_le ht2 hcap
      omega
    simp only [ansFinishGo, ansFinishPure, if_neg hlt]
    exact ih (fun q hq => hv q (List.mem_cons_of_mem p hq)) _ _ ht1 ht2

/-- `AnsEncoder.finish` never overflows on valid pairs within the documented
parameter limits, and computes exactly the structural right fold
`ansEncodeList` (reverse replay ⇒ the decoder reads bits forward). -/
theorem ansFinish_eq (ap : AnsParams) (hb : 2 ≤ ap.outSymbols)
    (houts : ap.outSymbols ≤ 2 ^ 32)
    (hlim : ap.precision + 1 + ceilLog2 ap.outSymbols ≤ 28)
    (input : List (ℕ × ℕ)) (hv : validPairs ap.precision input) :
    ansFinish ap input =
      Except.ok (ansEncodeList ap.precision ap.outSymbols ap.stateShift
        ap.renormLimit input) := by
  have hk1 : 1 ≤ ceilLog2 ap.outSymbols := ceilLog2_pos _ _
  have hL : ap.renormLimit = 2 ^ (ap.precision + 1) * 2 ^ ap.stateShift := by
    rw [AnsParams.renormLimit, AnsParams.stateShift, ← pow_add]
    congr 1
    unfold ANS_BITS
    omega
  have hbk : ap.outSymbols ≤ 2 ^ ceilLog2 ap.outSymbols := by
    have := ceilLog2_le ap.outSymbols 1 (by simpa using houts)
    simpa using this
  have hcap : ap.outSymbols * ap.renormLimit ≤ 2 ^ 28 := by
    calc ap.outSymbols * ap.renormLimit ≤
        2 ^ ceilLog2 ap.outSymbols * ap.renormLimit :=
          Nat.mul_le_mul_right _ hbk
      _ = 2 ^ ceilLog2 ap.outSymbols * 2 ^ (ANS_BITS - ceilLog2 ap.outSymbols) := rfl
      _ = 2 ^ 28 := by
          rw [← pow_add]
          congr 1
          unfold ANS_BITS
          omega
  have hLs1 : ap.renormLimit ≤ ap.renormLimit := le_rfl
  have hLs2 : ap.renormLimit < ap.outSymbols * ap.renormLimit := by
    have h1 : 0 < ap.renormLimit := Nat.pos_pow_of_pos _ (by omega)
    calc ap.renormLimit = 1 * ap.renormLimit := by ring
      _ < ap.outSymbols * ap.renormLimit := (Nat.mul_lt_mul_right h1).mpr (by omega)
  unfold ansFinish
  rw [ansFinishGo_ok ap.precision ap.outSymbols ap.stateShift ap.renormLimit hb hL hcap
    input.reverse (fun q hq => hv q (List.mem_reverse.mp hq)) ap.renormLimit [] hLs1 hLs2]
  rw [ansFinishPure_reverse]
  simp only [Except.map, List.nil_append, List.reverse_reverse]
  rfl

/-! ## Generic model interface and the compression drivers -/

/-- The duck-typed `Model` capability `{predict, update, flushByte}` consumed
by the drivers, for a model with internal state `σ`.  `predict` may mutate
internal state (lazy reset, cached mixer values), so it returns the updated
state along with the scaled probability.  `release` frees pooled buffers and
has no observable effect in a pure embedding.  The source's `update` throws on
a bit outside {0,1}; the drivers below only produce bits `(code >> i) & 1`,
which satisfy that contract by construction. -/
structure ModelOps (σ : Type) where
  predict : σ → σ × ℕ
  update : σ → ℕ → σ
  flushByte : σ → ℕ → σ

/-- Bits of one input code, MSB first: `(code >> i) & 1` for `i = inBits-1 … 0`. -/
def byteBits (inBits code : ℕ) : List ℕ :=
  (List.range inBits).reverse.map (fun i => code / 2 ^ i % 2)

/-- The inner bit loop shared by `compressWithModel`, the preset loop and
`decompressWithModel`: for each bit, `predict`, record `(bit, prob)`, `update`. -/
def traceBits {σ : Type} (M : ModelOps σ) (m : σ) : List ℕ → List (ℕ × ℕ) × σ
  | [] => ([], m)
  | bit :: bits =>
    let pm := M.predict m
    let t := traceBits M (M.update pm.1 bit) bits
    ((bit, pm.2) :: t.1, t.2)

/-- One byte of the compression loop: all `inBits` bits MSB-first, then
`flushByte(code, inBits)`. -/
def traceByte {σ : Type} (M : ModelOps σ) (inBits : ℕ) (m : σ) (code : ℕ) :
    List (ℕ × ℕ) × σ :=
  let t := traceBits M m (byteBits inBits code)
  (t.1, M.flushByte t.2 code)

/-- The whole input walked byte by byte, recording every `(bit, predictedFreq)`
pair handed to the encoder. -/
def traceInput {σ : Type} (M : ModelOps σ) (inBits : ℕ) (m : σ) :
    List ℕ → List (ℕ × ℕ) × σ
  | [] => ([], m)
  | code :: rest =>
    let t := traceByte M inBits m code
    let tr := traceInput M inBits t.2 rest
    (t.1 ++ tr.1, tr.2)

/-- The preset priming loop of `compressWithModel`/`decompressWithModel`:
feed each preset byte through predict/update/flushByte without encoding. -/
def primeModel {σ : Type} (M : ModelOps σ) (inBits : ℕ) (m : σ) (preset : List ℕ) : σ :=
  preset.foldl (fun m code => (traceByte M inBits m code).2) m

/-- The compress-time sentinel validation of `compressWithModel` (executed
before anything is encoded): empty input, a last byte different from the
sentinel, or any interior occurrence of the sentinel is a fatal error. -/
def sentinelCheck (input : List ℕ) (eb : ℕ) : Except String Unit :=
  if input.length = 0 then
    Except.error "compressWithModel: inputEndsWithByte given but input is empty"
  else if input.getLast? ≠ some eb then
    Except.error "compressWithModel: input does not agree with inputEndsWithByte"
  else if (input.take (input.length - 1)).contains eb then
    Except.error "compressWithModel: input contains multiple inputEndsWithByte"
  else Except.ok ()

/-- `AnsEncoder.writeBit`'s validations applied to every buffered pair, in
order (the source performs them as each bit is written). -/
def checkPairs (precision : ℕ) : List (ℕ × ℕ) → Except String Unit
  | [] => Except.ok ()
  | p :: rest => (writeBitCheck precision p).bind (fun _ => checkPairs precision rest)

/-- The option record consumed by the drivers (the fields of `options` the
drivers read: `inBits, outBits, precision, preset, inputEndsWithByte`;
`calculateByteEntropy` and the derived reporting fields `bufLengthInBytes` /
`byteEntropy` are pure floating-point reporting and are not modelled). -/
structure CompressOptions where
  inBits : ℕ
  outBits : ℤ
  precision : ℕ
  preset : List ℕ := []
  inputEndsWithByte : Option ℕ := none

/-- `{state, buf, inputLength}` of the compressed artifact; `inputLength` is
`-1` in sentinel mode so callers cannot rely on it. -/
structure CompressedOutput where
  state : ℕ
  buf : List ℕ
  inputLength : ℤ
deriving DecidableEq

/-- `compressWithModel` of the source: sentinel validation, preset priming,
the per-byte/per-bit predict–writeBit–update loop (as `traceInput` plus the
`writeBit` validations), and `encoder.finish()`. -/
def compressWithModel {σ : Type} (M : ModelOps σ) (m0 : σ) (input : List ℕ)
    (opt : CompressOptions) : Except String CompressedOutput :=
  (match opt.inputEndsWithByte with
    | some eb => sentinelCheck input eb
    | none => Except.ok ()).bind (fun _ =>
  (checkPairs opt.precision
      (traceInput M opt.inBits (primeModel M opt.inBits m0 opt.preset) input).1).bind (fun _ =>
  (ansFinish ⟨opt.outBits, opt.precision⟩
      (traceInput M opt.inBits (primeModel M opt.inBits m0 opt.preset) input).1).map
    (fun (r : ℕ × List ℕ) =>
    ⟨r.1, r.2,
      match opt.inputEndsWithByte with
      | none => (input.length : ℤ)
      | some _ => -1⟩)))

/-- The inner bit loop of `decompressWithModel`: `predict`, `readBit`,
accumulate `current = (current << 1) | bit`, `update`. -/
def decodeBits {σ : Type} (M : ModelOps σ) (precision b L : ℕ) :
    ℕ → σ → ℤ → List ℕ → ℕ → Except String (ℕ × σ × ℤ × List ℕ)
  | 0, m, s, buf, cur => Except.ok (cur, m, s, buf)
  | k + 1, m, s, buf, cur =>
    let pm := M.predict m
    (ansReadBit precision b L pm.2 s buf).bind (fun r =>
      decodeBits M precision b L k (M.update pm.1 r.1) r.2.1 r.2.2 (cur * 2 + r.1))

/-- One byte of the decompression loop, ending with `flushByte`. -/
def decodeByte {σ : Type} (M : ModelOps σ) (precision b L inBits : ℕ) (m : σ)
    (s : ℤ) (buf : List ℕ) : Except String (ℕ × σ × ℤ × List ℕ) :=
  (decodeBits M precision b L inBits m s buf 0).map
    (fun r => (r.1, M.flushByte r.2.1 r.1, r.2.2.1, r.2.2.2))

/-- The known-length branch of `decompressWithModel`. -/
def decodeKnown {σ : Type} (M : ModelOps σ) (precision b L inBits : ℕ) :
    ℕ → σ → ℤ → List ℕ → Except String (List ℕ × σ × ℤ × List ℕ)
  | 0, m, s, buf => Except.ok ([], m, s, buf)
  | n + 1, m, s, buf =>
    (decodeByte M precision b L inBits m s buf).bind (fun r =>
      (decodeKnown M precision b L inBits n r.2.1 r.2.2.1 r.2.2.2).map
        (fun rr => (r.1 :: rr.1, rr.2)))

/-- The sentinel branch of `decompressWithModel`
(`do { … } while (current !== inputEndsWithByte)`).  The source loop can run
unboundedly on adversarial streams; the embedding takes an explicit fuel bound
(an embedding artifact — the round-trip theorem shows `input.length` fuel
suffices on real streams). -/
def decodeSentinel {σ : Type} (M : ModelOps σ) (precision b L inBits eb : ℕ) :
    ℕ → σ → ℤ → List ℕ → Except String (List ℕ × σ × ℤ × List ℕ)
  | 0, _, _, _ => Except.error "decompressWithModel: out of fuel"
  | fuel + 1, m, s, buf =>
    (decodeByte M precision b L inBits m s buf).bind (fun r =>
      if r.1 = eb then Except.ok ([r.1], r.2)
      else (decodeSentinel M precision b L inBits eb fuel r.2.1 r.2.2.1 r.2.2.2).map
        (fun rr => (r.1 :: rr.1, rr.2)))

/-- `decompressWithModel` of the source: preset priming, then the byte loop in
known-length or sentinel mode, returning the reconstructed byte list. -/
def decompressWithModel {σ : Type} (M : ModelOps σ) (m0 : σ) (out : CompressedOutput)
    (opt : CompressOptions) (fuel : ℕ) : Except String (List ℕ) :=
  let ap : AnsParams := ⟨opt.outBits, opt.precision⟩
  let m1 := primeModel M opt.inBits m0 opt.preset
  match opt.inputEndsWithByte with
  | some eb =>
    (decodeSentinel M opt.precision ap.outSymbols ap.renormLimit opt.inBits eb fuel
      m1 (out.state : ℤ) out.buf).map (fun (r : List ℕ × σ × ℤ × List ℕ) => r.1)
  | none =>
    (decodeKnown M opt.precision ap.outSymbols ap.renormLimit opt.inBits
      out.inputLength.toNat m1 (out.state : ℤ) out.buf).map
        (fun (r : List ℕ × σ × ℤ × List ℕ) => r.1)

/-! ## Round trip: decompression inverts compression -/

theorem byteBits_succ (n code : ℕ) :
    byteBits (n + 1) code = (code / 2 ^ n % 2) :: byteBits n code := by
  unfold byteBits
  rw [List.range_succ, List.reverse_append]
  rfl

theorem byteBits_length (n code : ℕ) : (byteBits n code).length = n := by
  unfold byteBits
  simp

theorem byteBits_le_one (n code : ℕ) : ∀ x ∈ byteBits n code, x ≤ 1 := by
  intro x hx
  unfold byteBits at hx
  obtain ⟨i, -, rfl⟩ := List.mem_map.mp hx
  have : code / 2 ^ i % 2 < 2 := Nat.mod_lt _ (by omega)
  omega

/-- Reassembling the MSB-first bits recovers the code modulo `2^inBits`. -/
theorem byteBits_foldl (code : ℕ) :
    ∀ (n cur : ℕ), (byteBits n code).foldl (fun c bit => c * 2 + bit) cur =
      cur * 2 ^ n + code % 2 ^ n := by
  intro n
  induction n with
  | zero => intro cur; simp [byteBits, Nat.mod_one]
  | succ n ih =>
    intro cur
    rw [byteBits_succ]
    simp only [List.foldl_cons]
    rw [ih]
    have hm : code % 2 ^ (n + 1) = code % 2 ^ n + 2 ^ n * (code / 2 ^ n % 2) := by
      rw [pow_succ, Nat.mod_mul]
    rw [hm, pow_succ]
    ring

theorem traceBits_valid {σ : Type} (M : ModelOps σ) (precision : ℕ)
    (hP : ∀ st : σ, (M.predict st).2 < 2 ^ precision) :
    ∀ (bits : List ℕ) (m : σ), (∀ x ∈ bits, x ≤ 1) →
      validPairs precision (traceBits M m bits).1 := by
  intro bits
  induction bits with
  | nil => intro m _ p hp; simp [traceBits] at hp
  | cons bit bits ih =>
    intro m hbits p hp
    simp only [traceBits, List.mem_cons] at hp
    rcases hp with hp | hp
    · subst hp
      exact ⟨hbits bit (List.mem_cons_self _ _), hP m⟩
    · exact ih _ (fun x hx => hbits x (List.mem_cons_of_mem _ hx)) p hp

theorem validPairs_append {precision : ℕ} {l1 l2 : List (ℕ × ℕ)}
    (h1 : validPairs precision l1) (h2 : validPairs precision l2) :
    validPairs precision (l1 ++ l2) := by
  intro p hp
  rcases List.mem_append.mp hp with h | h
  · exact h1 p h
  · exact h2 p h

theorem traceInput_valid {σ : Type} (M : ModelOps σ) (precision inBits : ℕ)
    (hP : ∀ st : σ, (M.predict st).2 < 2 ^ precision) :
    ∀ (input : List ℕ) (m : σ), validPairs precision (traceInput M inBits m input).1 := by
  intro input
  induction input with
  | nil => intro m p hp; simp [traceInput] at hp
  | cons code rest ih =>
    intro m
    simp only [traceInput]
    exact validPairs_append
      (traceBits_valid M precision hP _ _ (byteBits_le_one inBits code)) (ih _)

/-- The decompression bit loop, fed the structural encoding of the pairs that
the compression bit loop traced from the *same* model state, recovers exactly
the original bits (driving the model through the identical state sequence). -/
theorem decodeBits_trace {σ : Type} (M : ModelOps σ) (precision b shift L : ℕ)
    (hb : 2 ≤ b) (hL : L = 2 ^ (precision + 1) * 2 ^ shift)
    (hP : ∀ st : σ, (M.predict st).2 < 2 ^ precision) :
    ∀ (bits : List ℕ) (m : σ), (∀ x ∈ bits, x ≤ 1) →
      ∀ (tail : List (ℕ × ℕ)), validPairs precision tail →
      ∀ (extra : List ℕ) (cur : ℕ),
      decodeBits M precision b L bits.length m
          ((ansEncodeList precision b shift L ((traceBits M m bits).1 ++ tail)).1 : ℤ)
          ((ansEncodeList precision b shift L ((traceBits M m bits).1 ++ tail)).2 ++ extra)
          cur =
        Except.ok (bits.foldl (fun c bit => c * 2 + bit) cur, (traceBits M m bits).2,
          ((ansEncodeList precision b shift L tail).1 : ℤ),
          (ansEncodeList precision b shift L tail).2 ++ extra) := by
  intro bits
  induction bits with
  | nil =>
    intro m _ tail _ extra cur
    simp [traceBits, decodeBits]
  | cons bit bits ih =>
    intro m hbits tail hvt extra cur
    have hbit : bit ≤ 1 := hbits bit (List.mem_cons_self _ _)
    have hbits' : ∀ x ∈ bits, x ≤ 1 := fun x hx => hbits x (List.mem_cons_of_mem _ hx)
    have hvalid : validPairs precision ((traceBits M (M.update (M.predict m).1 bit) bits).1 ++ tail) :=
      validPairs_append (traceBits_valid M precision hP _ _ hbits') hvt
    have hcons : (traceBits M m (bit :: bits)).1 ++ tail =
        (bit, (M.predict m).2) ::
          ((traceBits M (M.update (M.predict m).1 bit) bits).1 ++ tail) := by
      simp [traceBits]
    show decodeBits M precision b L (bits.length + 1) m _ _ cur = _
    rw [hcons]
    simp only [decodeBits]
    rw [ansEncodeList_cons_readBit precision b shift L hb hL bit (M.predict m).2
      ((traceBits M (M.update (M.predict m).1 bit) bits).1 ++ tail) hbit (hP m) hvalid extra]
    show decodeBits M precision b L bits.length (M.update (M.predict m).1 bit) _ _ _ = _
    rw [ih (M.update (M.predict m).1 bit) hbits' tail hvt extra (cur * 2 + bit)]
    simp [traceBits]

/-- One byte decodes back to itself (bytes must fit in `inBits` bits, which is
how the engine chooses `inBits`). -/
theorem decodeByte_trace {σ : Type} (M : ModelOps σ) (precision b shift L inBits : ℕ)
    (hb : 2 ≤ b) (hL : L = 2 ^ (precision + 1) * 2 ^ shift)
    (hP : ∀ st : σ, (M.predict st).2 < 2 ^ precision)
    (code : ℕ) (hcode : code < 2 ^ inBits) (m : σ)
    (tail : List (ℕ × ℕ)) (hvt : validPairs precision tail) (extra : List ℕ) :
    decodeByte M precision b L inBits m
        ((ansEncodeList precision b shift L ((traceByte M inBits m code).1 ++ tail)).1 : ℤ)
        ((ansEncodeList precision b shift L ((traceByte M inBits m code).1 ++ tail)).2 ++ extra) =
      Except.ok (code, (traceByte M inBits m code).2,
        ((ansEncodeList precision b shift L tail).1 : ℤ),
        (ansEncodeList precision b shift L tail).2 ++ extra) := by
  unfold decodeByte
  have h := decodeBits_trace M precision b shift L hb hL hP (byteBits inBits code) m
    (byteBits_le_one inBits code) tail hvt extra 0
  rw [byteBits_foldl code inBits 0] at h
  have hfold : 0 * 2 ^ inBits + code % 2 ^ inBits = code := by
    rw [Nat.mod_eq_of_lt hcode]
    ring
  rw [hfold, byteBits_length] at h
  simp only [traceByte]
  rw [h]
  rfl

theorem decodeKnown_trace {σ : Type} (M : ModelOps σ) (precision b shift L inBits : ℕ)
    (hb : 2 ≤ b) (hL : L = 2 ^ (precision + 1) * 2 ^ shift)
    (hP : ∀ st : σ, (M.predict st).2 < 2 ^ precision) :
    ∀ (input : List ℕ) (m : σ), (∀ c ∈ input, c < 2 ^ inBits) →
      ∀ (tail : List (ℕ × ℕ)), validPairs precision tail → ∀ (extra : List ℕ),
      decodeKnown M precision b L inBits input.length m
          ((ansEncodeList precision b shift L ((traceInput M inBits m input).1 ++ tail)).1 : ℤ)
          ((ansEncodeList precision b shift L ((traceInput M inBits m input).1 ++ tail)).2 ++ extra) =
        Except.ok (input, (traceInput M inBits m input).2,
          ((ansEncodeList precision b shift L tail).1 : ℤ),
          (ansEncodeList precision b shift L tail).2 ++ extra) := by
  intro input
  induction input with
  | nil =>
    intro m _ tail _ extra
    simp [traceInput, decodeKnown]
  | cons code rest ih =>
    intro m hbytes tail hvt extra
    have hcode : code < 2 ^ inBits := hbytes code (List.mem_cons_self _ _)
    have hbytes' : ∀ c ∈ rest, c < 2 ^ inBits :=
      fun c hc => hbytes c (List.mem_cons_of_mem _ hc)
    have htr : (traceInput M inBits m (code :: rest)).1 ++ tail =
        (traceByte M inBits m code).1 ++
          ((traceInput M inBits (traceByte M inBits m code).2 rest).1 ++ tail) := by
      simp [traceInput, List.append_assoc]
    show decodeKnown M precision b L inBits (rest.length + 1) m _ _ = _
    rw [htr]
    simp only [decodeKnown]
    rw [decodeByte_trace M precision b shift L inBits hb hL hP code hcode m
      ((traceInput M inBits (traceByte M inBits m code).2 rest).1 ++ tail)
      (validPairs_append (traceInput_valid M precision inBits hP rest _) hvt) extra]
    show (decodeKnown M precision b L inBits rest.length (traceByte M inBits m code).2
        _ _).map _ = _
    rw [ih (traceByte M inBits m code).2 hbytes' tail hvt extra]
    simp only [traceInput]
    rfl

theorem decodeSentinel_trace {σ : Type} (M : ModelOps σ) (precision b shift L inBits eb : ℕ)
    (hb : 2 ≤ b) (hL : L = 2 ^ (precision + 1) * 2 ^ shift)
    (hP : ∀ st : σ, (M.predict st).2 < 2 ^ precision) :
    ∀ (input : List ℕ) (fuel : ℕ) (m : σ), input.length ≤ fuel →
      (∀ c ∈ input, c < 2 ^ inBits) → input.getLast? = some eb →
      eb ∉ input.take (input.length - 1) →
      ∀ (tail : List (ℕ × ℕ)), validPairs precision tail → ∀ (extra : List ℕ),
      decodeSentinel M precision b L inBits eb fuel m
          ((ansEncodeList precision b shift L ((traceInput M inBits m input).1 ++ tail)).1 : ℤ)
          ((ansEncodeList precision b shift L ((traceInput M inBits m input).1 ++ tail)).2 ++ extra) =
        Except.ok (input, (traceInput M inBits m input).2,
          ((ansEncodeList precision b shift L tail).1 : ℤ),
          (ansEncodeList precision b shift L tail).2 ++ extra) := by
  intro input
  induction input with
  | nil =>
    intro fuel m _ _ hlast _ tail _ extra
    simp at hlast
  | cons code rest ih =>
    intro fuel m hfuel hbytes hlast hmid tail hvt extra
    obtain ⟨fuel', rfl⟩ : ∃ fuel', fuel = fuel' + 1 := by
      cases fuel
      · simp at hfuel
      · exact ⟨_, rfl⟩
    have hcode : code < 2 ^ inBits := hbytes code (List.mem_cons_self _ _)
    have htr : (traceInput M inBits m (code :: rest)).1 ++ tail =
        (traceByte M inBits m code).1 ++
          ((traceInput M inBits (traceByte M inBits m code).2 rest).1 ++ tail) := by
      simp [traceInput, List.append_assoc]
    rw [htr]
    simp only [decodeSentinel]
    rw [decodeByte_trace M precision b shift L inBits hb hL hP code hcode m
      ((traceInput M inBits (traceByte M inBits m code).2 rest).1 ++ tail)
      (validPairs_append (traceInput_valid M precision inBits hP rest _) hvt) extra]
    cases rest with
    | nil =>
      have hcodeeb : code = eb := by
        simp at hlast
        exact hlast
      simp only [Except.bind, if_pos hcodeeb]
      subst hcodeeb
      simp [traceInput]
    | cons r1 r2 =>
      have hne : code ≠ eb := by
        intro hcontra
        apply hmid
        subst hcontra
        simp
      simp only [Except.bind, if_neg hne]
      have hlast' : (r1 :: r2).getLast? = some eb := by
        rwa [List.getLast?_cons_cons] at hlast
      have hmid' : eb ∉ (r1 :: r2).take ((r1 :: r2).length - 1) := by
        intro hcontra
        apply hmid
        have : (code :: r1 :: r2).length - 1 = (r1 :: r2).length := by simp
        rw [this]
        have hsucc : (r1 :: r2).length = ((r1 :: r2).length - 1) + 1 := by simp
        rw [hsucc, List.take_succ_cons]
        exact List.mem_cons_of_mem _ hcontra
      rw [ih fuel' (traceByte M inBits m code).2 (by simpa using hfuel)
        (fun c hc => hbytes c (List.mem_cons_of_mem _ hc)) hlast' hmid' tail hvt extra]
      simp only [traceInput]
      rfl

theorem checkPairs_ok (precision : ℕ) :
    ∀ (l : List (ℕ × ℕ)), validPairs precision l → checkPairs precision l = Except.ok () := by
  intro l
  induction l with
  | nil => intro _; rfl
  | cons p rest ih =>
    intro hv
    obtain ⟨h1, h2⟩ := hv p (List.mem_cons_self _ _)
    have hc : writeBitCheck precision p = Except.ok () := by
      unfold writeBitCheck
      rw [if_neg (by omega), if_neg (by omega)]
    simp only [checkPairs, hc, Except.bind]
    exact ih (fun q hq => hv q (List.mem_cons_of_mem _ hq))

theorem sentinelCheck_ok (input : List ℕ) (eb : ℕ) (h1 : input ≠ [])
    (h2 : input.getLast? = some eb) (h3 : eb ∉ input.take (input.length - 1)) :
    sentinelCheck input eb = Except.ok () := by
  unfold sentinelCheck
  rw [if_neg (by simpa using h1), if_neg (by simp [h2]), if_neg (by simpa using h3)]

theorem AnsParams.renormLimit_split (ap : AnsParams)
    (hlim : ap.precision + 1 + ceilLog2 ap.outSymbols ≤ 28) :
    ap.renormLimit = 2 ^ (ap.precision + 1) * 2 ^ ap.stateShift := by
  rw [AnsParams.renormLimit, AnsParams.stateShift, ← pow_add]
  congr 1
  unfold ANS_BITS
  omega

/-- `compressWithModel` on a conforming model/parameter combination succeeds
and produces exactly the structural encoding of the traced pairs. -/
theorem compressWithModel_ok {σ : Type} (M : ModelOps σ) (m0 : σ) (input : List ℕ)
    (opt : CompressOptions)
    (hb : 2 ≤ (AnsParams.mk opt.outBits opt.precision).outSymbols)
    (houts : (AnsParams.mk opt.outBits opt.precision).outSymbols ≤ 2 ^ 32)
    (hlim : opt.precision + 1 + ceilLog2 (AnsParams.mk opt.outBits opt.precision).outSymbols ≤ 28)
    (hP : ∀ st : σ, (M.predict st).2 < 2 ^ opt.precision)
    (hmode : ∀ eb, opt.inputEndsWithByte = some eb →
      input ≠ [] ∧ input.getLast? = some eb ∧ eb ∉ input.take (input.length - 1)) :
    compressWithModel M m0 input opt =
      Except.ok
        ⟨(ansEncodeList opt.precision (AnsParams.mk opt.outBits opt.precision).outSymbols
            (AnsParams.mk opt.outBits opt.precision).stateShift
            (AnsParams.mk opt.outBits opt.precision).renormLimit
            (traceInput M opt.inBits (primeModel M opt.inBits m0 opt.preset) input).1).1,
          (ansEncodeList opt.precision (AnsParams.mk opt.outBits opt.precision).outSymbols
            (AnsParams.mk opt.outBits opt.precision).stateShift
            (AnsParams.mk opt.outBits opt.precision).renormLimit
            (traceInput M opt.inBits (primeModel M opt.inBits m0 opt.preset) input).1).2,
          match opt.inputEndsWithByte with
          | none => (input.length : ℤ)
          | some _ => -1⟩ := by
  unfold compressWithModel
  have hsent : (match opt.inputEndsWithByte with
      | some eb => sentinelCheck input eb
      | none => Except.ok ()) = Except.ok () := by
    cases hE : opt.inputEndsWithByte with
    | none => rfl
    | some eb =>
      obtain ⟨ha, hb', hc⟩ := hmode eb hE
      exact sentinelCheck_ok input eb ha hb' hc
  rw [hsent]
  rw [checkPairs_ok opt.precision _ (traceInput_valid M opt.precision opt.inBits hP input _)]
  rw [ansFinish_eq (AnsParams.mk opt.outBits opt.precision) hb houts hlim _
    (traceInput_valid M opt.precision opt.inBits hP input _)]
  rfl

/-- **C1**: for every parameter record `p` and every byte sequence `x`
satisfying `p`'s constraints (bytes fit in `inBits`; in sentinel mode the
sentinel byte occurs exactly once, as the last byte; rANS parameters within
the documented limits; the model's predictions scaled to `[0, 2^precision)`),
`decompressWithModel` applied to the result of `compressWithModel (x, model, p)`,
with a freshly constructed model from the identical record (the same initial
model state `m0` and preset priming), returns exactly `x`. -/
theorem compress_decompress_roundTrip {σ : Type} (M : ModelOps σ) (m0 : σ)
    (input : List ℕ) (opt : CompressOptions) (fuel : ℕ)
    (hb : 2 ≤ (AnsParams.mk opt.outBits opt.precision).outSymbols)
    (houts : (AnsParams.mk opt.outBits opt.precision).outSymbols ≤ 2 ^ 32)
    (hlim : opt.precision + 1 + ceilLog2 (AnsParams.mk opt.outBits opt.precision).outSymbols ≤ 28)
    (hP : ∀ st : σ, (M.predict st).2 < 2 ^ opt.precision)
    (hbytes : ∀ c ∈ input, c < 2 ^ opt.inBits)
    (hmode : ∀ eb, opt.inputEndsWithByte = some eb →
      input ≠ [] ∧ input.getLast? = some eb ∧ eb ∉ input.take (input.length - 1))
    (hfuel : input.length ≤ fuel) :
    (compressWithModel M m0 input opt).bind
      (fun out => decompressWithModel M m0 out opt fuel) = Except.ok input := by
  rw [compressWithModel_ok M m0 input opt hb houts hlim hP hmode]
  have hL := AnsParams.renormLimit_split (AnsParams.mk opt.outBits opt.precision) hlim
  have hvnil : validPairs opt.precision [] := by
    intro p hp
    simp at hp
  cases hE : opt.inputEndsWithByte with
  | none =>
    simp only [Except.bind, decompressWithModel, hE]
    have h := decodeKnown_trace M opt.precision
      (AnsParams.mk opt.outBits opt.precision).outSymbols
      (AnsParams.mk opt.outBits opt.precision).stateShift
      (AnsParams.mk opt.outBits opt.precision).renormLimit opt.inBits hb hL hP
      input (primeModel M opt.inBits m0 opt.preset) hbytes [] hvnil []
    simp only [List.append_nil] at h
    rw [Int.toNat_natCast]
    rw [h]
    rfl
  | some eb =>
    obtain ⟨ha, hb', hc⟩ := hmode eb hE
    simp only [Except.bind, decompressWithModel, hE]
    have h := decodeSentinel_trace M opt.precision
      (AnsParams.mk opt.outBits opt.precision).outSymbols
      (AnsParams.mk opt.outBits opt.precision).stateShift
      (AnsParams.mk opt.outBits opt.precision).renormLimit opt.inBits eb hb hL hP
      input fuel (primeModel M opt.inBits m0 opt.preset) hfuel hbytes hb' hc [] hvnil []
    simp only [List.append_nil] at h
    rw [h]
    rfl

/-- An order-0 constant predictor over trivial state, used to witness the
round trip at a concrete input. -/
def c1M : ModelOps Unit :=
  ⟨fun _ => ((), 1), fun _ _ => (), fun _ _ => ()⟩

def c1Opt : CompressOptions :=
  { inBits := 1, outBits := 1, precision := 2 }

theorem compress_decompress_roundTrip_witness :
    (compressWithModel c1M () [1, 0] c1Opt).bind
      (fun out => decompressWithModel c1M () out c1Opt 2) = Except.ok [1, 0] :=
  compress_decompress_roundTrip c1M () [1, 0] c1Opt 2 (by decide) (by decide) (by decide)
    (by intro u; cases u; decide) (by decide) (fun eb h => Option.noConfusion h) (by decide)

/-! ## C3 / C4 / C5: coder safety, exact inversion, sentinel validation -/

/-- **C3**: for every buffered `(bit, predictedFreq)` sequence within the
`writeBit` contract and rANS parameters within the documented limits, the
renormalization/transform loop of `finish()` keeps the state below `2^31` at
every step — the `state overflow` error branch is unreachable, i.e. `finish()`
never throws. -/
theorem ansFinish_no_overflow (ap : AnsParams) (hb : 2 ≤ ap.outSymbols)
    (houts : ap.outSymbols ≤ 2 ^ 32)
    (hlim : ap.precision + 1 + ceilLog2 ap.outSymbols ≤ 28)
    (input : List (ℕ × ℕ)) (hv : validPairs ap.precision input) :
    ∃ out, ansFinish ap input = Except.ok out :=
  ⟨_, ansFinish_eq ap hb houts hlim input hv⟩

theorem ansFinish_no_overflow_witness :
    ∃ out, ansFinish ⟨1, 2⟩ [(1, 1), (0, 3)] = Except.ok out :=
  ansFinish_no_overflow ⟨1, 2⟩ (by decide) (by decide) (by decide) [(1, 1), (0, 3)]
    (by unfold validPairs; decide)

/-- Low `precision+1` bits of the transformed state decide the bit: they fall
in `[0, prob)` exactly for `bit = 1` and in `[prob, 2^(precision+1))` for
`bit = 0`, with `prob = (predictedFreq << 1) | 1`. -/
theorem ansTransform_lowBits (precision b shift L : ℕ) (hb : 2 ≤ b)
    (hL : L = 2 ^ (precision + 1) * 2 ^ shift) (bit f s : ℕ) (hbit : bit ≤ 1)
    (hf : f < 2 ^ precision) (hs1 : L ≤ s) (hs2 : s < b * L) :
    (((ansTransform precision b shift (bit, f) s).1 : ℤ) % 2 ^ (precision + 1) <
        2 * (f : ℤ) + 1) ↔ bit = 1 := by
  have hps2 : 2 ^ (precision + 1) = 2 * 2 ^ precision := by rw [pow_succ]; ring
  rcases Nat.le_one_iff_eq_zero_or_eq_one.mp hbit with h0 | h1
  · subst h0
    have hsize1 : 1 ≤ 2 ^ (precision + 1) - (2 * f + 1) := by omega
    have hss : (2 * f + 1) + (2 ^ (precision + 1) - (2 * f + 1)) ≤ 2 ^ (precision + 1) := by
      omega
    obtain ⟨-, -, c3, -, -⟩ := ansStep_core precision b shift L (2 * f + 1)
      (2 ^ (precision + 1) - (2 * f + 1)) s hb hL hsize1 hss hs1 hs2 []
    rw [ansTransform_bit0]
    set size := 2 ^ (precision + 1) - (2 * f + 1) with hsz
    set s2 := (encRenorm b (size * b * 2 ^ shift) s).1 with hs2d
    rw [c3]
    have hlt : ¬(((s2 % size + (2 * f + 1) : ℕ) : ℤ) < 2 * (f : ℤ) + 1) := by
      push_cast
      omega
    exact iff_of_false hlt (by omega)
  · subst h1
    have hsize1 : 1 ≤ 2 * f + 1 := by omega
    have hss : 0 + (2 * f + 1) ≤ 2 ^ (precision + 1) := by omega
    obtain ⟨-, -, c3, -, -⟩ := ansStep_core precision b shift L 0
      (2 * f + 1) s hb hL hsize1 hss hs1 hs2 []
    set s2 := (encRenorm b ((2 * f + 1) * b * 2 ^ shift) s).1 with hs2d
    rw [ansTransform_bit1]
    have c3x : (((s2 / (2 * f + 1) * 2 ^ (precision + 1) + s2 % (2 * f + 1) + 0 : ℕ)) : ℤ) %
        ((2 : ℤ) ^ (precision + 1)) = ((s2 % (2 * f + 1) + 0 : ℕ) : ℤ) := c3
    rw [c3x]
    have hmlt : s2 % (2 * f + 1) < 2 * f + 1 := Nat.mod_lt s2 (by omega)
    have hlt : (((s2 % (2 * f + 1) + 0 : ℕ) : ℤ) < 2 * (f : ℤ) + 1) := by
      have hc : ((2 : ℤ) * (f : ℤ) + 1) = ((2 * f + 1 : ℕ) : ℤ) := by push_cast; ring
      rw [hc]
      exact_mod_cast (show s2 % (2 * f + 1) + 0 < 2 * f + 1 by omega)
    exact iff_of_true hlt rfl

/-- The conjunction of coder-inversion facts claimed for `AnsEncoder.finish`
and `AnsDecoder.readBit`:
1. `finish` replays the buffered pairs in reverse and returns `{state, buf}`
   equal to the structural right fold `ansEncodeList` (never throwing);
2. `readBit` with the same predicted frequency reads the *head* pair's bit of
   an encoded sequence back first — i.e. decoding proceeds forward in the
   original order — and restores the coder state of the remaining pairs;
3. the interval mapping: the low `precision+1` bits of a stepped state lie in
   `[0, (f << 1) | 1)` exactly when the encoded bit was 1, and in
   `[(f << 1) | 1, 2^(precision+1))` when it was 0. -/
def ansCoderInverseProp (ap : AnsParams) : Prop :=
  (∀ input, validPairs ap.precision input →
    ansFinish ap input = Except.ok
      (ansEncodeList ap.precision ap.outSymbols ap.stateShift ap.renormLimit input)) ∧
  (∀ (bit f : ℕ) (tail : List (ℕ × ℕ)) (extra : List ℕ), bit ≤ 1 →
    f < 2 ^ ap.precision → validPairs ap.precision tail →
    ansReadBit ap.precision ap.outSymbols ap.renormLimit f
        ((ansEncodeList ap.precision ap.outSymbols ap.stateShift ap.renormLimit
          ((bit, f) :: tail)).1 : ℤ)
        ((ansEncodeList ap.precision ap.outSymbols ap.stateShift ap.renormLimit
          ((bit, f) :: tail)).2 ++ extra) =
      Except.ok (bit,
        (((ansEncodeList ap.precision ap.outSymbols ap.stateShift ap.renormLimit tail).1 : ℤ),
        (ansEncodeList ap.precision ap.outSymbols ap.stateShift ap.renormLimit tail).2 ++
          extra))) ∧
  (∀ (bit f s : ℕ), bit ≤ 1 → f < 2 ^ ap.precision → ap.renormLimit ≤ s →
    s < ap.outSymbols * ap.renormLimit →
    ((((ansTransform ap.precision ap.outSymbols ap.stateShift (bit, f) s).1 : ℤ) %
        2 ^ (ap.precision + 1) < 2 * (f : ℤ) + 1) ↔ bit = 1))

/-- **C4**: `AnsEncoder.finish` replays buffered bits in reverse with the odd
interval mapping `prob = (predictedFreq << 1) | 1` (bit=1 ↦ `[0, prob)`,
bit=0 ↦ `[prob, 2^(precision+1))`), and `AnsDecoder.readBit` performs the
exact inverse transform, so decoding reads the bits forward in original
order. -/
theorem ansCoder_inverse (ap : AnsParams) (hb : 2 ≤ ap.outSymbols)
    (houts : ap.outSymbols ≤ 2 ^ 32)
    (hlim : ap.precision + 1 + ceilLog2 ap.outSymbols ≤ 28) :
    ansCoderInverseProp ap := by
  have hL := AnsParams.renormLimit_split ap hlim
  refine ⟨fun input hv => ansFinish_eq ap hb houts hlim input hv, ?_, ?_⟩
  · intro bit f tail extra hbit hf hvt
    exact ansEncodeList_cons_readBit ap.precision ap.outSymbols ap.stateShift
      ap.renormLimit hb hL bit f tail hbit hf hvt extra
  · intro bit f s hbit hf hs1 hs2
    exact ansTransform_lowBits ap.precision ap.outSymbols ap.stateShift
      ap.renormLimit hb hL bit f s hbit hf hs1 hs2

theorem ansCoder_inverse_witness : ansCoderInverseProp ⟨1, 2⟩ :=
  ansCoder_inverse ⟨1, 2⟩ (by decide) (by decide) (by decide)

theorem sentinelCheck_error (input : List ℕ) (eb : ℕ)
    (hbad : input = [] ∨ input.getLast? ≠ some eb ∨ eb ∈ input.take (input.length - 1)) :
    ∃ e, sentinelCheck input eb = Except.error e := by
  unfold sentinelCheck
  split_ifs with h1 h2 h3
  · exact ⟨_, rfl⟩
  · exact ⟨_, rfl⟩
  · exact ⟨_, rfl⟩
  · exfalso
    rcases hbad with hb' | hb' | hb'
    · exact h1 (by simp [hb'])
    · exact hb' (by simpa using h2)
    · exact h3 (by simpa using hb')

/-- **C5**: `compressWithModel` in sentinel mode fails fatally at compress
time (before encoding anything) *iff* the input is empty, the last byte
differs from the sentinel, or the sentinel occurs at a non-final position;
an input whose sentinel appears exactly once as the last byte is accepted,
and then round-trips through `decompressWithModel`. -/
theorem sentinel_mode_validation {σ : Type} (M : ModelOps σ) (m0 : σ)
    (input : List ℕ) (opt : CompressOptions) (eb : ℕ) (fuel : ℕ)
    (hE : opt.inputEndsWithByte = some eb)
    (hb : 2 ≤ (AnsParams.mk opt.outBits opt.precision).outSymbols)
    (houts : (AnsParams.mk opt.outBits opt.precision).outSymbols ≤ 2 ^ 32)
    (hlim : opt.precision + 1 + ceilLog2 (AnsParams.mk opt.outBits opt.precision).outSymbols ≤ 28)
    (hP : ∀ st : σ, (M.predict st).2 < 2 ^ opt.precision)
    (hbytes : ∀ c ∈ input, c < 2 ^ opt.inBits)
    (hfuel : input.length ≤ fuel) :
    ((∃ e, compressWithModel M m0 input opt = Except.error e) ↔
      (input = [] ∨ input.getLast? ≠ some eb ∨ eb ∈ input.take (input.length - 1))) ∧
    ((input ≠ [] ∧ input.getLast? = some eb ∧ eb ∉ input.take (input.length - 1)) →
      (compressWithModel M m0 input opt).bind
        (fun out => decompressWithModel M m0 out opt fuel) = Except.ok input) := by
  have hgood : (input ≠ [] ∧ input.getLast? = some eb ∧ eb ∉ input.take (input.length - 1)) →
      ∀ eb', opt.inputEndsWithByte = some eb' →
        input ≠ [] ∧ input.getLast? = some eb' ∧ eb' ∉ input.take (input.length - 1) := by
    intro hg eb' hE'
    rw [hE] at hE'
    obtain rfl : eb = eb' := by injection hE'
    exact hg
  constructor
  · constructor
    · intro hfail
      by_contra hcond
      push_neg at hcond
      obtain ⟨h1, h2, h3⟩ := hcond
      have hok := compressWithModel_ok M m0 input opt hb houts hlim hP
        (hgood ⟨h1, h2, h3⟩)
      obtain ⟨e, he⟩ := hfail
      rw [hok] at he
      exact Except.noConfusion he
    · intro hbad
      obtain ⟨e, he⟩ := sentinelCheck_error input eb hbad
      refine ⟨e, ?_⟩
      unfold compressWithModel
      rw [hE]
      dsimp only
      rw [he]
      rfl
  · intro hg
    have hL := AnsParams.renormLimit_split (AnsParams.mk opt.outBits opt.precision) hlim
    have hvnil : validPairs opt.precision [] := by
      intro p hp
      simp at hp
    rw [compressWithModel_ok M m0 input opt hb houts hlim hP (hgood hg)]
    simp only [Except.bind, decompressWithModel, hE]
    have h := decodeSentinel_trace M opt.precision
      (AnsParams.mk opt.outBits opt.precision).outSymbols
      (AnsParams.mk opt.outBits opt.precision).stateShift
      (AnsParams.mk opt.outBits opt.precision).renormLimit opt.inBits eb hb hL hP
      input fuel (primeModel M opt.inBits m0 opt.preset) hfuel hbytes hg.2.1 hg.2.2 [] hvnil []
    simp only [List.append_nil] at h
    rw [h]
    rfl

def c5Opt : CompressOptions :=
  { inBits := 1, outBits := 1, precision := 2, inputEndsWithByte := some 1 }

theorem sentinel_mode_validation_witness :
    ((∃ e, compressWithModel c1M () [0, 1] c5Opt = Except.error e) ↔
      (([0, 1] : List ℕ) = [] ∨ ([0, 1] : List ℕ).getLast? ≠ some 1 ∨
        1 ∈ ([0, 1] : List ℕ).take (([0, 1] : List ℕ).length - 1))) ∧
    ((([0, 1] : List ℕ) ≠ [] ∧ ([0, 1] : List ℕ).getLast? = some 1 ∧
        1 ∉ ([0, 1] : List ℕ).take (([0, 1] : List ℕ).length - 1)) →
      (compressWithModel c1M () [0, 1] c5Opt).bind
        (fun out => decompressWithModel c1M () out c5Opt 2) = Except.ok [0, 1]) :=
  sentinel_mode_validation c1M () [0, 1] c5Opt 1 2 rfl (by decide) (by decide) (by decide)
    (by intro u; cases u; decide) (by decide) (by decide)

/-! ## DirectContextModel -/

/-- State of a `DirectContextModel`.  The backing `UintXXArray`s are embedded
as functions from masked context to stored value; the constructor-chosen array
widths (`precision` bits for predictions, `ceilLog2(modelMaxCount+1)` bits for
counts, 8 bits for confirmations) hold every in-range value exactly, and the
range invariant proved below keeps every written value in range, so no
typed-array wraparound is observable.  `confirmations = some (marks, mark)`
is the pooled lazy-reset mode; the final excess element
`confirmations[1 << contextBits]` (the maximum mark in use) lives at index
`2^contextBits` of the marks function, untouched by the masked accesses. -/
structure DCMState where
  predictions : ℕ → ℕ
  counts : ℕ → ℕ
  confirmations : Option ((ℕ → ℕ) × ℕ)
  bitContext : ℕ

/-- The non-pooled `DirectContextModel` constructor:
`predictions.fill(1 << (precision - 1))`, zero-initialized counts (fresh typed
arrays are zeroed), `bitContext = 1`. -/
def DCMState.fresh (precision : ℕ) : DCMState :=
  ⟨fun _ => 2 ^ (precision - 1), fun _ => 0, none, 1⟩

/-- The pooled `DirectContextModel` constructor on possibly dirty reused
buffers: pick `mark = confirmations[1 << contextBits] + 1`, clearing the whole
marks array and restarting from 1 when the mark would reach 256, then store
the new mark in the excess element. -/
def DCMState.pooled (contextBits : ℕ) (pred0 count0 conf0 : ℕ → ℕ) : DCMState :=
  let mark0 := conf0 (2 ^ contextBits) + 1
  let marks := if mark0 = 256 then (fun _ => 0) else conf0
  let mark := if mark0 = 256 then 1 else mark0
  ⟨pred0, count0, some (Function.update marks (2 ^ contextBits) mark, mark), 1⟩

/-- `DirectContextModel.predict`: mask the context with the running bit
context, lazily reset the slot if unconfirmed under the current mark, and
return its prediction (with the possibly-mutated state). -/
def DCMState.predict (contextBits precision : ℕ) (m : DCMState) (context : ℕ) :
    DCMState × ℕ :=
  let ctx := (context + m.bitContext) % 2 ^ contextBits
  match m.confirmations with
  | some (conf, mark) =>
    if conf ctx ≠ mark then
      ({ m with
          confirmations := some (Function.update conf ctx mark, mark),
          predictions := Function.update m.predictions ctx (2 ^ (precision - 1)),
          counts := Function.update m.counts ctx 0 },
        2 ^ (precision - 1))
    else (m, m.predictions ctx)
  | none => (m, m.predictions ctx)

/-- The successful branch of `DirectContextModel.update`: saturating count
increment, then
`predictions[ctx] += (delta / (counts[ctx] + 1/modelRecipBaseCount) | 0) >> (29 - precision)`
with `delta = ((bit << precision) - predictions[ctx]) << (29 - precision)`.
The float `1 / modelRecipBaseCount` is embedded exactly:
`x / (count + 1/M) | 0 = Int.tdiv (x * M) (count * M + 1)`; `>> k` on the
(possibly negative) int32 quotient is floor division `/ 2^k` on `ℤ`.  The
written value is nonnegative and in range by `dcm_update_range` below, so the
final `Int.toNat` is exact. -/
def DCMState.updateCore (contextBits precision modelMaxCount M : ℕ) (m : DCMState)
    (actualBit context : ℕ) : DCMState :=
  let ctx := (context + m.bitContext) % 2 ^ contextBits
  let counts' := if m.counts ctx < modelMaxCount then
    Function.update m.counts ctx (m.counts ctx + 1) else m.counts
  let delta : ℤ := ((actualBit : ℤ) * 2 ^ precision - (m.predictions ctx : ℤ)) *
    2 ^ (29 - precision)
  let q : ℤ := Int.tdiv (delta * (M : ℤ)) ((counts' ctx : ℤ) * (M : ℤ) + 1)
  { m with
    predictions := Function.update m.predictions ctx
      ((m.predictions ctx : ℤ) + q / 2 ^ (29 - precision)).toNat,
    counts := counts',
    bitContext := m.bitContext * 2 + actualBit }

/-- `DirectContextModel.update`, with the source's fatal check on a bit
outside {0,1}. -/
def DCMState.update (contextBits precision modelMaxCount M : ℕ) (m : DCMState)
    (actualBit context : ℕ) : Option DCMState :=
  if actualBit ≠ 0 ∧ actualBit ≠ 1 then none
  else some (DCMState.updateCore contextBits precision modelMaxCount M m actualBit context)

/-- `DirectContextModel.flushByte`: reset the intra-byte bit accumulator. -/
def DCMState.flushByte (m : DCMState) : DCMState :=
  { m with bitContext := 1 }

/-- The `Model` capability of a `DirectContextModel` as consumed by the
drivers (default `context = 0`; the drivers only pass bits 0/1, on which
`update` cannot throw, so the `Option` is collapsed with the unchanged state
as an unreachable fallback). -/
def DCMState.ops (contextBits precision modelMaxCount M : ℕ) : ModelOps DCMState :=
  { predict := fun m => DCMState.predict contextBits precision m 0
    update := fun m bit =>
      (DCMState.update contextBits precision modelMaxCount M m bit 0).getD m
    flushByte := fun m _ => DCMState.flushByte m }

/-- **Range step lemma** (mirrors the algebraic argument in the source
comment): one update step keeps the prediction inside `[0, 2^precision)`,
*without any clamping*, provided the post-increment count is at least 1 and
`modelRecipBaseCount ≥ 1` — the divisor `count + 1/M` strictly exceeds 1, so
the truncated correction can never overshoot. -/
theorem dcm_update_range (precision M c P bit : ℕ)
    (hprec28 : precision ≤ 28) (hM : 1 ≤ M)
    (hbit : bit ≤ 1) (hP : P < 2 ^ precision) (hc : 1 ≤ c) :
    0 ≤ (P : ℤ) + (Int.tdiv ((((bit : ℤ) * 2 ^ precision - (P : ℤ)) * 2 ^ (29 - precision)) *
        (M : ℤ)) ((c : ℤ) * (M : ℤ) + 1)) / 2 ^ (29 - precision) ∧
    (P : ℤ) + (Int.tdiv ((((bit : ℤ) * 2 ^ precision - (P : ℤ)) * 2 ^ (29 - precision)) *
        (M : ℤ)) ((c : ℤ) * (M : ℤ) + 1)) / 2 ^ (29 - precision) < 2 ^ precision := by
  have hden0 : (0 : ℤ) < (c : ℤ) * (M : ℤ) + 1 := by positivity
  have h2k : (0 : ℤ) < 2 ^ (29 - precision) := by positivity
  have hMc : (1 : ℤ) ≤ (M : ℤ) := by exact_mod_cast hM
  have hcc : (1 : ℤ) ≤ (c : ℤ) := by exact_mod_cast hc
  have hPc : (P : ℤ) < 2 ^ precision := by exact_mod_cast hP
  have hP0 : (0 : ℤ) ≤ (P : ℤ) := by positivity
  rcases Nat.le_one_iff_eq_zero_or_eq_one.mp hbit with h0 | h1
  · -- bit = 0 : delta ≤ 0, the prediction can only decrease, but not below 0
    subst h0
    have hnum : (((0 : ℕ) : ℤ) * 2 ^ precision - (P : ℤ)) * 2 ^ (29 - precision) * (M : ℤ) =
        -((P : ℤ) * 2 ^ (29 - precision) * (M : ℤ)) := by push_cast; ring
    rw [hnum, Int.neg_tdiv]
    have ha0 : (0 : ℤ) ≤ (P : ℤ) * 2 ^ (29 - precision) * (M : ℤ) := by positivity
    rw [Int.tdiv_eq_ediv ha0 (le_of_lt hden0)]
    set a : ℤ := (P : ℤ) * 2 ^ (29 - precision) * (M : ℤ) with hadef
    set t : ℤ := a / ((c : ℤ) * (M : ℤ) + 1) with htdef
    have ht0 : 0 ≤ t := Int.ediv_nonneg ha0 (le_of_lt hden0)
    have htle : t * ((c : ℤ) * (M : ℤ) + 1) ≤ a := Int.ediv_mul_le a (by omega)
    constructor
    · -- lower bound : need  -(P·2^k) ≤ -t,  i.e.  t ≤ P·2^k
      have htP : t ≤ (P : ℤ) * 2 ^ (29 - precision) := by nlinarith
      have hq : -((P : ℤ)) ≤ (-t) / 2 ^ (29 - precision) := by
        rw [Int.le_ediv_iff_mul_le h2k]
        nlinarith
      nlinarith [hq]
    · -- upper bound : the correction is ≤ 0
      have hqle : (-t) / 2 ^ (29 - precision) ≤ 0 := by
        calc (-t) / 2 ^ (29 - precision) ≤ 0 / 2 ^ (29 - precision) :=
          Int.ediv_le_ediv h2k (by omega)
          _ = 0 := Int.zero_ediv _
      omega
  · -- bit = 1 : delta ≥ 0, the prediction can only grow, but stays < 2^precision
    subst h1
    have hnum : (((1 : ℕ) : ℤ) * 2 ^ precision - (P : ℤ)) * 2 ^ (29 - precision) * (M : ℤ) =
        (2 ^ precision - (P : ℤ)) * 2 ^ (29 - precision) * (M : ℤ) := by push_cast; ring
    rw [hnum]
    have hnum0 : (0 : ℤ) ≤ (2 ^ precision - (P : ℤ)) * 2 ^ (29 - precision) * (M : ℤ) := by
      have : (0 : ℤ) ≤ 2 ^ precision - (P : ℤ) := by omega
      positivity
    rw [Int.tdiv_eq_ediv hnum0 (le_of_lt hden0)]
    set num : ℤ := (2 ^ precision - (P : ℤ)) * 2 ^ (29 - precision) * (M : ℤ) with hnumdef
    set q : ℤ := num / ((c : ℤ) * (M : ℤ) + 1) with hqdef
    have hq0 : 0 ≤ q := Int.ediv_nonneg hnum0 (le_of_lt hden0)
    have hqle : q * ((c : ℤ) * (M : ℤ) + 1) ≤ num := Int.ediv_mul_le num (by omega)
    constructor
    · have : 0 ≤ q / 2 ^ (29 - precision) := Int.ediv_nonneg hq0 (le_of_lt h2k)
      omega
    · have hD0 : (0 : ℤ) < (2 ^ precision - (P : ℤ)) * 2 ^ (29 - precision) := by
        have : (0 : ℤ) < 2 ^ precision - (P : ℤ) := by omega
        positivity
      have hqlt : q < (2 ^ precision - (P : ℤ)) * 2 ^ (29 - precision) := by nlinarith
      have : q / 2 ^ (29 - precision) < 2 ^ precision - (P : ℤ) := by
        rw [Int.ediv_lt_iff_lt_mul h2k]
        nlinarith
      omega

/-- States reachable from a freshly constructed (non-pooled)
`DirectContextModel` by any sequence of `predict` / `update` / `flushByte`
calls (with arbitrary caller contexts; `update` succeeds only on bits 0/1,
anything else throws). -/
inductive DCMReach (contextBits precision modelMaxCount M : ℕ) : DCMState → Prop
  | init : DCMReach contextBits precision modelMaxCount M (DCMState.fresh precision)
  | predict (m : DCMState) (context : ℕ)
      (hm : DCMReach contextBits precision modelMaxCount M m) :
      DCMReach contextBits precision modelMaxCount M
        (DCMState.predict contextBits precision m context).1
  | update (m : DCMState) (bit context : ℕ) (m' : DCMState)
      (hupd : DCMState.update contextBits precision modelMaxCount M m bit context = some m')
      (hm : DCMReach contextBits precision modelMaxCount M m) :
      DCMReach contextBits precision modelMaxCount M m'
  | flush (m : DCMState) (hm : DCMReach contextBits precision modelMaxCount M m) :
      DCMReach contextBits precision modelMaxCount M m.flushByte

/-- **C2**: starting from a fresh `DirectContextModel` table, after any
sequence of `predict`/`update`/`flushByte` calls with bits in {0,1}, every
table entry's prediction is an integer in `[0, 2^precision)` and every count
stays in `[0, modelMaxCount]`.  The prediction bound comes from the update
formula itself (`dcm_update_range`, with the count at least 1 after the
saturating increment), with no after-the-fact clamping. -/
theorem dcm_range_invariant (contextBits precision modelMaxCount M : ℕ)
    (hprec1 : 1 ≤ precision) (hprec28 : precision ≤ 28) (hM : 1 ≤ M)
    (hmax : 1 ≤ modelMaxCount) (m : DCMState)
    (h : DCMReach contextBits precision modelMaxCount M m) :
    ∀ ctx, m.predictions ctx < 2 ^ precision ∧ m.counts ctx ≤ modelMaxCount := by
  have hmid : 2 ^ (precision - 1) < 2 ^ precision :=
    Nat.pow_lt_pow_right (by omega) (by omega)
  induction h with
  | init =>
    intro ctx
    exact ⟨hmid, by simp [DCMState.fresh]⟩
  | predict m context hm ih =>
    intro ctx
    unfold DCMState.predict
    rcases hconf : m.confirmations with - | cm
    · exact ih ctx
    · obtain ⟨conf, mark⟩ := cm
      by_cases hmark : conf ((context + m.bitContext) % 2 ^ contextBits) ≠ mark
      · simp only [if_pos hmark]
        rcases eq_or_ne ctx ((context + m.bitContext) % 2 ^ contextBits) with rfl | hne
        · simp [Function.update_same, hmid]
        · simp only [Function.update_noteq hne]
          exact ih ctx
      · simp only [if_neg hmark]
        exact ih ctx
  | update m bit context m' hupd hm ih =>
    unfold DCMState.update at hupd
    by_cases hbad : bit ≠ 0 ∧ bit ≠ 1
    · rw [if_pos hbad] at hupd
      exact Option.noConfusion hupd
    rw [if_neg hbad] at hupd
    have hbit : bit ≤ 1 := by omega
    obtain rfl : DCMState.updateCore contextBits precision modelMaxCount M m bit context = m' := by
      injection hupd
    intro ctx
    simp only [DCMState.updateCore]
    set ctx0 := (context + m.bitContext) % 2 ^ contextBits with hctx0
    set counts' := if m.counts ctx0 < modelMaxCount then
      Function.update m.counts ctx0 (m.counts ctx0 + 1) else m.counts with hcounts
    have hcounts_le : ∀ c, counts' c ≤ modelMaxCount := by
      intro c
      rw [hcounts]
      split_ifs with hlt
      · rcases eq_or_ne c ctx0 with rfl | hne
        · rw [Function.update_same]
          omega
        · rw [Function.update_noteq hne]
          exact (ih c).2
      · exact (ih c).2
    have hcounts_pos : 1 ≤ counts' ctx0 := by
      rw [hcounts]
      split_ifs with hlt
      · rw [Function.update_same]
        omega
      · omega
    rcases eq_or_ne ctx ctx0 with rfl | hne
    · constructor
      · simp only [Function.update_same]
        obtain ⟨hlo, hhi⟩ := dcm_update_range precision M (counts' ctx0)
          (m.predictions ctx0) bit hprec28 hM hbit (ih ctx0).1 hcounts_pos
        have hcast : ((2 : ℤ) ^ precision) = ((2 ^ precision : ℕ) : ℤ) := by push_cast; ring
        omega
      · exact hcounts_le ctx0
    · constructor
      · simp only [Function.update_noteq hne]
        exact (ih ctx).1
      · exact hcounts_le ctx
  | flush m hm ih =>
    exact ih

theorem dcm_range_invariant_witness :
    (DCMState.updateCore 2 16 5 20 (DCMState.fresh 16) 1 0).predictions 0 < 2 ^ 16 ∧
      (DCMState.updateCore 2 16 5 20 (DCMState.fresh 16) 1 0).counts 0 ≤ 5 :=
  dcm_range_invariant 2 16 5 20 (by decide) (by decide) (by decide) (by decide) _
    (DCMReach.update (DCMState.fresh 16) 1 0 _ rfl DCMReach.init) 0

/-! ## C6: pooled lazy-reset model ≡ fresh zero-allocated model -/

/-- Bisimulation of the generic drivers: two models related by any `R` that
matches predictions, is preserved by the predict-then-update step on bits,
and by `flushByte`, produce identical `(bit, predictedFreq)` traces. -/
theorem traceBits_congr {σ₁ σ₂ : Type} (M₁ : ModelOps σ₁) (M₂ : ModelOps σ₂)
    (R : σ₁ → σ₂ → Prop)
    (hpred : ∀ m1 m2, R m1 m2 → (M₁.predict m1).2 = (M₂.predict m2).2)
    (hstep : ∀ m1 m2 bit, R m1 m2 → bit ≤ 1 →
      R (M₁.update (M₁.predict m1).1 bit) (M₂.update (M₂.predict m2).1 bit)) :
    ∀ (bits : List ℕ) (m1 : σ₁) (m2 : σ₂), (∀ x ∈ bits, x ≤ 1) → R m1 m2 →
      (traceBits M₁ m1 bits).1 = (traceBits M₂ m2 bits).1 ∧
        R (traceBits M₁ m1 bits).2 (traceBits M₂ m2 bits).2 := by
  intro bits
  induction bits with
  | nil => intro m1 m2 _ hR; exact ⟨rfl, hR⟩
  | cons bit bits ih =>
    intro m1 m2 hbits hR
    have hbit : bit ≤ 1 := hbits bit (List.mem_cons_self _ _)
    obtain ⟨h1, h2⟩ := ih (M₁.update (M₁.predict m1).1 bit) (M₂.update (M₂.predict m2).1 bit)
      (fun x hx => hbits x (List.mem_cons_of_mem _ hx)) (hstep m1 m2 bit hR hbit)
    refine ⟨?_, h2⟩
    simp only [traceBits, h1, hpred m1 m2 hR]

theorem traceByte_congr {σ₁ σ₂ : Type} (M₁ : ModelOps σ₁) (M₂ : ModelOps σ₂)
    (R : σ₁ → σ₂ → Prop)
    (hpred : ∀ m1 m2, R m1 m2 → (M₁.predict m1).2 = (M₂.predict m2).2)
    (hstep : ∀ m1 m2 bit, R m1 m2 → bit ≤ 1 →
      R (M₁.update (M₁.predict m1).1 bit) (M₂.update (M₂.predict m2).1 bit))
    (hflush : ∀ m1 m2 code, R m1 m2 → R (M₁.flushByte m1 code) (M₂.flushByte m2 code))
    (inBits : ℕ) (code : ℕ) (m1 : σ₁) (m2 : σ₂) (hR : R m1 m2) :
    (traceByte M₁ inBits m1 code).1 = (traceByte M₂ inBits m2 code).1 ∧
      R (traceByte M₁ inBits m1 code).2 (traceByte M₂ inBits m2 code).2 := by
  obtain ⟨h1, h2⟩ := traceBits_congr M₁ M₂ R hpred hstep (byteBits inBits code) m1 m2
    (byteBits_le_one inBits code) hR
  exact ⟨by simp only [traceByte, h1], hflush _ _ code h2⟩

theorem traceInput_congr {σ₁ σ₂ : Type} (M₁ : ModelOps σ₁) (M₂ : ModelOps σ₂)
    (R : σ₁ → σ₂ → Prop)
    (hpred : ∀ m1 m2, R m1 m2 → (M₁.predict m1).2 = (M₂.predict m2).2)
    (hstep : ∀ m1 m2 bit, R m1 m2 → bit ≤ 1 →
      R (M₁.update (M₁.predict m1).1 bit) (M₂.update (M₂.predict m2).1 bit))
    (hflush : ∀ m1 m2 code, R m1 m2 → R (M₁.flushByte m1 code) (M₂.flushByte m2 code))
    (inBits : ℕ) :
    ∀ (input : List ℕ) (m1 : σ₁) (m2 : σ₂), R m1 m2 →
      (traceInput M₁ inBits m1 input).1 = (traceInput M₂ inBits m2 input).1 ∧
        R (traceInput M₁ inBits m1 input).2 (traceInput M₂ inBits m2 input).2 := by
  intro input
  induction input with
  | nil => intro m1 m2 hR; exact ⟨rfl, hR⟩
  | cons code rest ih =>
    intro m1 m2 hR
    obtain ⟨h1, h2⟩ := traceByte_congr M₁ M₂ R hpred hstep hflush inBits code m1 m2 hR
    obtain ⟨h3, h4⟩ := ih (traceByte M₁ inBits m1 code).2 (traceByte M₂ inBits m2 code).2 h2
    refine ⟨?_, h4⟩
    simp only [traceInput, h1, h3]

theorem primeModel_congr {σ₁ σ₂ : Type} (M₁ : ModelOps σ₁) (M₂ : ModelOps σ₂)
    (R : σ₁ → σ₂ → Prop)
    (hpred : ∀ m1 m2, R m1 m2 → (M₁.predict m1).2 = (M₂.predict m2).2)
    (hstep : ∀ m1 m2 bit, R m1 m2 → bit ≤ 1 →
      R (M₁.update (M₁.predict m1).1 bit) (M₂.update (M₂.predict m2).1 bit))
    (hflush : ∀ m1 m2 code, R m1 m2 → R (M₁.flushByte m1 code) (M₂.flushByte m2 code))
    (inBits : ℕ) (preset : List ℕ) :
    ∀ (m1 : σ₁) (m2 : σ₂), R m1 m2 →
      R (primeModel M₁ inBits m1 preset) (primeModel M₂ inBits m2 preset) := by
  induction preset with
  | nil => intro m1 m2 hR; exact hR
  | cons code rest ih =>
    intro m1 m2 hR
    exact ih _ _ (traceByte_congr M₁ M₂ R hpred hstep hflush inBits code m1 m2 hR).2

/-- Bisimilar models give byte-identical `compressWithModel` results. -/
theorem compressWithModel_congr {σ₁ σ₂ : Type} (M₁ : ModelOps σ₁) (M₂ : ModelOps σ₂)
    (R : σ₁ → σ₂ → Prop)
    (hpred : ∀ m1 m2, R m1 m2 → (M₁.predict m1).2 = (M₂.predict m2).2)
    (hstep : ∀ m1 m2 bit, R m1 m2 → bit ≤ 1 →
      R (M₁.update (M₁.predict m1).1 bit) (M₂.update (M₂.predict m2).1 bit))
    (hflush : ∀ m1 m2 code, R m1 m2 → R (M₁.flushByte m1 code) (M₂.flushByte m2 code))
    (m1 : σ₁) (m2 : σ₂) (hR : R m1 m2) (input : List ℕ) (opt : CompressOptions) :
    compressWithModel M₁ m1 input opt = compressWithModel M₂ m2 input opt := by
  have hprime := primeModel_congr M₁ M₂ R hpred hstep hflush opt.inBits opt.preset
    m1 m2 hR
  have htrace := traceInput_congr M₁ M₂ R hpred hstep hflush opt.inBits input
    (primeModel M₁ opt.inBits m1 opt.preset) (primeModel M₂ opt.inBits m2 opt.preset) hprime
  unfold compressWithModel
  rw [htrace.1]

/-- Simulation between a pooled (lazy-reset) `DirectContextModel` and a fresh
zero-allocated one: bit contexts agree; the fresh side has no confirmation
marks; on the pooled side a slot confirmed under the current mark carries
exactly the fresh side's values, and an unconfirmed slot is *invisible* — the
fresh side holds the reset values (midpoint prediction, zero count) there. -/
def dcmSim (contextBits precision : ℕ) (m1 m2 : DCMState) : Prop :=
  m1.bitContext = m2.bitContext ∧ m2.confirmations = none ∧
  ∃ conf mark, m1.confirmations = some (conf, mark) ∧
    ∀ ctx, ctx < 2 ^ contextBits →
      (conf ctx = mark →
        m1.predictions ctx = m2.predictions ctx ∧ m1.counts ctx = m2.counts ctx) ∧
      (conf ctx ≠ mark →
        m2.predictions ctx = 2 ^ (precision - 1) ∧ m2.counts ctx = 0)

theorem dcm_ops_update_eq (contextBits precision modelMaxCount M : ℕ) (m : DCMState)
    (bit : ℕ) (hbit : bit ≤ 1) :
    (DCMState.ops contextBits precision modelMaxCount M).update m bit =
      DCMState.updateCore contextBits precision modelMaxCount M m bit 0 := by
  simp only [DCMState.ops, DCMState.update]
  rw [if_neg (by omega)]
  rfl


/-- `predict` agrees across the simulation and preserves it; moreover it
leaves the active slot (the one `update` will address next) confirmed under
the current mark. -/
theorem dcmSim_predict (contextBits precision : ℕ) (m1 m2 : DCMState)
    (hR : dcmSim contextBits precision m1 m2) :
    (DCMState.predict contextBits precision m1 0).2 =
      (DCMState.predict contextBits precision m2 0).2 ∧
    dcmSim contextBits precision (DCMState.predict contextBits precision m1 0).1
      (DCMState.predict contextBits precision m2 0).1 ∧
    (∃ conf mark,
      (DCMState.predict contextBits precision m1 0).1.confirmations = some (conf, mark) ∧
      conf ((0 + (DCMState.predict contextBits precision m1 0).1.bitContext) %
        2 ^ contextBits) = mark) := by
  obtain ⟨hbc, hc2, conf, mark, hc1, hslots⟩ := hR
  unfold DCMState.predict
  rw [hc1, hc2, hbc]
  dsimp only
  set ctx := (0 + m2.bitContext) % 2 ^ contextBits with hctxdef
  have hctxlt : ctx < 2 ^ contextBits := by
    rw [hctxdef]
    exact Nat.mod_lt _ (by positivity)
  by_cases hmark : conf ctx = mark
  · rw [if_neg (not_not_intro hmark)]
    dsimp only
    refine ⟨((hslots ctx hctxlt).1 hmark).1, ⟨hbc, hc2, conf, mark, hc1, hslots⟩,
      conf, mark, hc1, ?_⟩
    rw [hbc, ← hctxdef]
    exact hmark
  · rw [if_pos hmark]
    dsimp only
    refine ⟨((hslots ctx hctxlt).2 hmark).1.symm, ⟨rfl, hc2,
      Function.update conf ctx mark, mark, rfl, ?_⟩,
      Function.update conf ctx mark, mark, rfl, ?_⟩
    · intro ctx' hlt'
      rcases eq_or_ne ctx' ctx with rfl | hne
      · constructor
        · intro _
          dsimp only
          rw [Function.update_same, Function.update_same]
          exact ⟨((hslots ctx hlt').2 hmark).1.symm, ((hslots ctx hlt').2 hmark).2.symm⟩
        · intro hfalse
          exact absurd (Function.update_same _ _ _) hfalse
      · dsimp only
        rw [Function.update_noteq hne, Function.update_noteq hne, Function.update_noteq hne]
        exact hslots ctx' hlt'
    · dsimp only
      rw [← hctxdef]
      exact Function.update_same _ _ _

/-- The driver's predict-then-update step on a bit preserves the simulation:
`predict` has confirmed the active slot, so `update` reads identical values on
both sides and writes identical values. -/
theorem dcmSim_step (contextBits precision modelMaxCount M : ℕ) (m1 m2 : DCMState)
    (bit : ℕ) (hbit : bit ≤ 1) (hR : dcmSim contextBits precision m1 m2) :
    dcmSim contextBits precision
      (DCMState.updateCore contextBits precision modelMaxCount M
        (DCMState.predict contextBits precision m1 0).1 bit 0)
      (DCMState.updateCore contextBits precision modelMaxCount M
        (DCMState.predict contextBits precision m2 0).1 bit 0) := by
  obtain ⟨-, hsim, conf0, mark0, hc10, hconf0⟩ := dcmSim_predict contextBits precision m1 m2 hR
  set p1 := (DCMState.predict contextBits precision m1 0).1 with hp1
  set p2 := (DCMState.predict contextBits precision m2 0).1 with hp2
  obtain ⟨hbc, hc2, conf, mark, hc1, hslots⟩ := hsim
  rw [hc1] at hc10
  obtain ⟨he1, he2⟩ : conf = conf0 ∧ mark = mark0 := by
    injection hc10 with h
    exact ⟨congrArg Prod.fst h, congrArg Prod.snd h⟩
  subst he1
  subst he2
  set ctx := (0 + p1.bitContext) % 2 ^ contextBits with hctxdef
  have hctxlt : ctx < 2 ^ contextBits := by
    rw [hctxdef]
    exact Nat.mod_lt _ (by positivity)
  have hvals := (hslots ctx hctxlt).1 hconf0
  simp only [DCMState.updateCore]
  rw [← hbc, ← hctxdef]
  set c1 := (if p1.counts ctx < modelMaxCount then
    Function.update p1.counts ctx (p1.counts ctx + 1) else p1.counts) with hc1def
  set c2 := (if p2.counts ctx < modelMaxCount then
    Function.update p2.counts ctx (p2.counts ctx + 1) else p2.counts) with hc2def
  have hcnt_at : c1 ctx = c2 ctx := by
    rw [hc1def, hc2def, ← hvals.2]
    split_ifs with h
    · rw [Function.update_same, Function.update_same]
    · exact hvals.2
  have hcnt_ne : ∀ ctx', ctx' ≠ ctx → c1 ctx' = p1.counts ctx' ∧ c2 ctx' = p2.counts ctx' := by
    intro ctx' hne
    constructor
    · rw [hc1def]
      split_ifs with h
      · exact Function.update_noteq hne _ _
      · rfl
    · rw [hc2def]
      split_ifs with h
      · exact Function.update_noteq hne _ _
      · rfl
  have hveq : ((p1.predictions ctx : ℤ) +
      Int.tdiv (((bit : ℤ) * 2 ^ precision - (p1.predictions ctx : ℤ)) *
        2 ^ (29 - precision) * (M : ℤ)) ((c1 ctx : ℤ) * (M : ℤ) + 1) /
        2 ^ (29 - precision)).toNat =
      ((p2.predictions ctx : ℤ) +
      Int.tdiv (((bit : ℤ) * 2 ^ precision - (p2.predictions ctx : ℤ)) *
        2 ^ (29 - precision) * (M : ℤ)) ((c2 ctx : ℤ) * (M : ℤ) + 1) /
        2 ^ (29 - precision)).toNat := by
    rw [hvals.1, hcnt_at]
  refine ⟨?_, hc2, conf, mark, hc1, ?_⟩
  · show p1.bitContext * 2 + bit = p1.bitContext * 2 + bit
    rfl
  intro ctx' hlt'
  rcases eq_or_ne ctx' ctx with rfl | hne
  · refine ⟨fun _ => ?_, fun hfalse => absurd hconf0 hfalse⟩
    constructor
    · show Function.update p1.predictions ctx _ ctx = Function.update p2.predictions ctx _ ctx
      rw [Function.update_same, Function.update_same]
      exact hveq
    · show c1 ctx = c2 ctx
      exact hcnt_at
  · constructor
    · intro hmk
      have hold := (hslots ctx' hlt').1 hmk
      constructor
      · show Function.update p1.predictions ctx _ ctx' = Function.update p2.predictions ctx _ ctx'
        rw [Function.update_noteq hne, Function.update_noteq hne]
        exact hold.1
      · show c1 ctx' = c2 ctx'
        rw [(hcnt_ne ctx' hne).1, (hcnt_ne ctx' hne).2]
        exact hold.2
    · intro hmk
      have hold := (hslots ctx' hlt').2 hmk
      constructor
      · show Function.update p2.predictions ctx _ ctx' = 2 ^ (precision - 1)
        rw [Function.update_noteq hne]
        exact hold.1
      · show c2 ctx' = 0
        rw [(hcnt_ne ctx' hne).2]
        exact hold.2

/-- The pooled constructor on dirty reused buffers establishes the simulation
with a fresh model, as long as the reused marks buffer satisfies the pool
discipline: every slot's mark is at most the stored maximum mark, and all
marks are byte values (a `Uint8Array` guarantees the latter; `predict` writing
only the current mark maintains the former across up to 255 reuses before the
full clear). -/
theorem dcmSim_pooled_fresh (contextBits precision : ℕ)
    (pred0 count0 conf0 : ℕ → ℕ)
    (hmax : ∀ i, i < 2 ^ contextBits → conf0 i ≤ conf0 (2 ^ contextBits))
    (hbyte : ∀ i, conf0 i ≤ 255) :
    dcmSim contextBits precision (DCMState.pooled contextBits pred0 count0 conf0)
      (DCMState.fresh precision) := by
  unfold DCMState.pooled DCMState.fresh
  refine ⟨rfl, rfl, _, _, rfl, ?_⟩
  intro ctx hlt
  have hne : ctx ≠ 2 ^ contextBits := by omega
  by_cases hwrap : conf0 (2 ^ contextBits) + 1 = 256
  · rw [if_pos hwrap, if_pos hwrap]
    rw [Function.update_noteq hne]
    refine ⟨fun h => absurd h (by omega), fun _ => ⟨rfl, rfl⟩⟩
  · rw [if_neg hwrap, if_neg hwrap]
    rw [Function.update_noteq hne]
    have := hmax ctx hlt
    refine ⟨fun h => absurd h (by omega), fun _ => ⟨rfl, rfl⟩⟩

/-- **C6**: for every parameter record and every input, a `DirectContextModel`
backed by the resource pool (lazy-reset confirmation marks over arbitrary
dirty reused buffers) and a `DirectContextModel` allocated fresh without a
pool (predictions filled with the midpoint `2^(precision-1)`, counts zero)
produce byte-identical compressed output — the same `state` and `buf`. -/
theorem pooled_fresh_identical_output (contextBits precision modelMaxCount M : ℕ)
    (pred0 count0 conf0 : ℕ → ℕ)
    (hmax : ∀ i, i < 2 ^ contextBits → conf0 i ≤ conf0 (2 ^ contextBits))
    (hbyte : ∀ i, conf0 i ≤ 255)
    (input : List ℕ) (opt : CompressOptions) :
    compressWithModel (DCMState.ops contextBits precision modelMaxCount M)
        (DCMState.pooled contextBits pred0 count0 conf0) input opt =
      compressWithModel (DCMState.ops contextBits precision modelMaxCount M)
        (DCMState.fresh precision) input opt := by
  apply compressWithModel_congr (DCMState.ops contextBits precision modelMaxCount M)
    (DCMState.ops contextBits precision modelMaxCount M)
    (dcmSim contextBits precision)
  · intro m1 m2 hR
    exact (dcmSim_predict contextBits precision m1 m2 hR).1
  · intro m1 m2 bit hR hbit
    show dcmSim contextBits precision
      ((DCMState.update contextBits precision modelMaxCount M
        (DCMState.predict contextBits precision m1 0).1 bit 0).getD _)
      ((DCMState.update contextBits precision modelMaxCount M
        (DCMState.predict contextBits precision m2 0).1 bit 0).getD _)
    unfold DCMState.update
    rw [if_neg (by omega), if_neg (by omega)]
    exact dcmSim_step contextBits precision modelMaxCount M m1 m2 bit hbit hR
  · intro m1 m2 code hR
    obtain ⟨-, hc2, conf, mark, hc1, hslots⟩ := hR
    exact ⟨rfl, hc2, conf, mark, hc1, hslots⟩
  · exact dcmSim_pooled_fresh contextBits precision pred0 count0 conf0 hmax hbyte

theorem pooled_fresh_identical_output_witness :
    compressWithModel (DCMState.ops 1 2 1 20)
        (DCMState.pooled 1 (fun _ => 99) (fun _ => 7) (fun _ => 3)) [1] c1Opt =
      compressWithModel (DCMState.ops 1 2 1 20) (DCMState.fresh 2) [1] c1Opt :=
  pooled_fresh_identical_output 1 2 1 20 (fun _ => 99) (fun _ => 7) (fun _ => 3)
    (fun i _ => le_rfl) (fun i => by norm_num) [1] c1Opt

/-!
### The optimizer: `Packer.optimize` (`src/index.mjs` lines 1338–1537)

`optimize` searches over a handful of packer options.  Every trial gets its
score from `calculateSize` (lines 1351–1366), which runs the whole packer
over cached prepared inputs and measures the estimated compressed length;
the search control flow never looks inside that computation, so the
embedding abstracts it as an oracle `calc : OptParams → ℚ`, and likewise
takes the `maxAbbreviations` value recorded by the first oracle call as a
plain argument.  `Math.random()` draws are abstracted as a stream
`rng : ℕ → ℚ` of values in `[0, 1)` consumed left to right, and the
floating-point transcendentals `Math.exp` / `Math.log` / `Math.log2` are
embedded as the exact real functions, which makes these definitions
noncomputable.  The two loops whose termination depends on the random
stream (the `do … while (next.includes(added))` draw at lines 1500–1503 and
its cousin in `defaultSparseSelectors`) and the trisection loop
`while (hi - lo >= 4)` (line 1443) get explicit fuel; exhausted fuel is a
distinguished error standing for a run of the source loop longer than the
fuel.  The `await`s only sequence effects, so the embedding is the
corresponding `Except`-monad chain; the only exception `optimize` itself
can raise is the `'search aborted'` one thrown by `reportProgress`
(line 1376).
-/

/-- The fields of `this.options` that `optimize` reads: the baseline for the
`delete best.x` normalizations and the initial sparse selector set. -/
structure PackerOptions where
  modelMaxCount : ℕ
  dynamicModels : ℕ
  numAbbreviations : ℕ
  sparseSelectors : List ℕ
  precision : ℕ
  recipLearningRate : ℕ

/-- The partial option records `best` / `current` built up by `optimize`:
they start out `{}` and gain fields one search pass at a time
(`src/index.mjs:1381`, `{ ...best, field: i }`). -/
structure OptParams where
  modelRecipBaseCount : Option ℕ := none
  modelMaxCount : Option ℕ := none
  dynamicModels : Option ℕ := none
  numAbbreviations : Option ℕ := none
  sparseSelectors : Option (List ℕ) := none
  precision : Option ℕ := none
  recipLearningRate : Option ℕ := none
deriving DecidableEq

/-- The object handed to the caller's progress callback
(`src/index.mjs:1371–1375`). -/
structure ProgressInfo where
  pass : String
  passRatio : Option ℝ
  current : OptParams
  currentSize : ℚ
  currentRejected : Bool
  best : OptParams
  bestSize : ℚ
  bestUpdated : Bool

/-- The optimizer's mutable best state: `best` and `bestSize`
(`src/index.mjs:1381–1382`). -/
abbrev OptSt := OptParams × ℚ

/-- `reportProgress` (`src/index.mjs:1368–1377`): absent callback reports
nothing; a callback answering `false` raises `Error('search aborted')`,
which nothing inside `optimize` catches. -/
def reportProgress (progress : Option (ProgressInfo → Bool)) (pass : String)
    (passRatio : Option ℝ) (current : OptParams) (currentSize : ℚ)
    (currentRejected : Bool) (best : OptParams) (bestSize : ℚ)
    (bestUpdated : Bool) : Except String Unit :=
  match progress with
  | none => Except.ok ()
  | some p =>
    if p ⟨pass, passRatio, current, currentSize, currentRejected, best, bestSize,
        bestUpdated⟩ = false
    then Except.error "search aborted"
    else Except.ok ()

/-- `updateBest` (`src/index.mjs:1385–1394`): score the candidate and replace
`best`/`bestSize` exactly when the new size is strictly smaller (`copy` is a
JSON deep copy, the identity on our pure values).  Returns the new state,
the candidate's size and the `bestUpdated` flag. -/
def updateBest (calcSize : OptParams → ℚ) (st : OptSt) (current : OptParams) :
    OptSt × ℚ × Bool :=
  let size := calcSize current
  if size < st.2 then ((current, size), size, true) else (st, size, false)

/-- `updateBestAndReportProgress` (`src/index.mjs:1396–1400`): the
`currentRejected` flag reported is `!bestUpdated`. -/
def updateBestAndReportProgress (calcSize : OptParams → ℚ)
    (progress : Option (ProgressInfo → Bool)) (current : OptParams)
    (pass : String) (passRatio : ℝ) (st : OptSt) :
    Except String (ℚ × OptSt) :=
  let r := updateBest calcSize st current
  (reportProgress progress pass (some passRatio) current r.2.1 (!r.2.2) r.1.1
      r.1.2 r.2.2).map (fun _ => (r.2.1, r.1))

/-- `Math.round(Math.sqrt m)` on a natural argument.  `Math.sqrt` is exactly
rounded and `√m` is never a half-integer (`(s + 1/2)² = s² + s + 1/4` is not
an integer), so the composite is the integer nearest to the real square
root: `⌊√m⌋ = Nat.sqrt m`, rounded up exactly when
`√m ≥ s + 1/2`, i.e. when `m > s² + s`. -/
def roundSqrt (m : ℕ) : ℕ :=
  let s := Nat.sqrt m
  if m ≤ s * s + s then s else s + 1

/-- The midpoint function of `search` (`src/index.mjs:1422–1427`): geometric
(`Math.round(Math.sqrt(x * y))`) for the `EXP` distribution, arithmetic
(`(x + y) >> 1`) for `LINEAR`.  `dist = true` stands for `EXP = 1`. -/
def midFn (dist : Bool) (x y : ℕ) : ℕ :=
  if dist then roundSqrt (x * y) else (x + y) / 2

/-- The range estimate feeding the progress-ratio approximation
(`src/index.mjs:1431, 1435`). -/
noncomputable def searchRange (dist : Bool) (lo hi : ℕ) : ℝ :=
  if dist then Real.logb 2 hi - Real.logb 2 lo + 1 else (hi : ℝ) - (lo : ℝ)

/-- The score callbacks handed to `search`: a candidate value and a progress
ratio, returning the candidate's size and the updated best state. -/
abbrev ScoreFn := ℕ → ℝ → OptSt → Except String (ℚ × OptSt)

/-- `evaluate` (`src/index.mjs:1432–1440`): the per-`search` memo cache is an
association list; `if (!y)` re-scores both a missing and a cached zero
entry. -/
noncomputable def evaluate (score : ScoreFn) (dist : Bool) (origRange : ℝ)
    (lo hi x : ℕ) (cache : List (ℕ × ℚ)) (st : OptSt) :
    Except String (ℚ × List (ℕ × ℚ) × OptSt) :=
  let y0 := (cache.lookup x).getD 0
  if y0 = 0 then
    (score x (1 - Real.log (searchRange dist lo hi) / Real.log origRange)
        st).map (fun r => (r.1, (x, r.1) :: cache, r.2))
  else Except.ok (y0, cache, st)

/-- `min` after the `for (let i = 1; i < 5; ++i)` scan of
`src/index.mjs:1448–1451`: the index of the smallest of the five scores,
ties to the earlier index. -/
def minIndex5 (y0 y1 y2 y3 y4 : ℚ) : ℕ :=
  let yy := fun i => [y0, y1, y2, y3, y4].getD i 0
  [1, 2, 3, 4].foldl (fun min i => if yy min > yy i then i else min) 0

/-- The trisection loop `while (hi - lo >= 4)` of `search`
(`src/index.mjs:1442–1465`) followed by the final exhaustive scan
`for (let x = lo + 1; x < hi; ++x)` (line 1465), on explicit fuel. -/
noncomputable def searchGo (score : ScoreFn) (dist : Bool) (origRange : ℝ) :
    ℕ → ℕ → ℕ → ℕ → List (ℕ × ℚ) → OptSt → Except String OptSt
  | 0, _, _, _, _, _ => Except.error "out of fuel"
  | fuel + 1, lo, hi, q2, cache, st =>
    if 4 ≤ hi - lo then do
      let x1 := midFn dist lo q2
      let x3 := midFn dist q2 hi
      let (y0, cache, st) ← evaluate score dist origRange lo hi lo cache st
      let (y1, cache, st) ← evaluate score dist origRange lo hi x1 cache st
      let (y2, cache, st) ← evaluate score dist origRange lo hi q2 cache st
      let (y3, cache, st) ← evaluate score dist origRange lo hi x3 cache st
      let (y4, cache, st) ← evaluate score dist origRange lo hi hi cache st
      let min := minIndex5 y0 y1 y2 y3 y4
      let xx := [lo, x1, q2, x3, hi]
      if min = 0 then
        searchGo score dist origRange fuel lo x1 (midFn dist lo x1) cache st
      else if min = 4 then
        searchGo score dist origRange fuel x3 hi (midFn dist x3 hi) cache st
      else
        searchGo score dist origRange fuel (xx.getD (min - 1) 0)
          (xx.getD (min + 1) 0) (xx.getD min 0) cache st
    else do
      let r ← (List.range' (lo + 1) (hi - lo - 1)).foldlM
        (fun (p : List (ℕ × ℚ) × OptSt) x => do
          let (_, cache, st) ← evaluate score dist origRange lo hi x p.1 p.2
          pure (cache, st)) (cache, st)
      pure r.2

/-- `search` (`src/index.mjs:1408–1466`): at `level <= 1` only the manual
values are tried (with ratio `i / manualValues.length`); otherwise the
trisection starts at `q2 = mid(lo, hi)` with an empty cache. -/
noncomputable def search (level : ℕ) (score : ScoreFn) (lo hi : ℕ)
    (dist : Bool) (manualValues : List ℕ) (fuel : ℕ) (st : OptSt) :
    Except String OptSt :=
  if level ≤ 1 then
    (List.range manualValues.length).foldlM
      (fun st i =>
        (score (manualValues.getD i 0) ((i : ℝ) / (manualValues.length : ℝ))
            st).map (fun r => r.2)) st
  else
    searchGo score dist (searchRange dist lo hi) fuel lo hi (midFn dist lo hi)
      [] st

/-- `AUTO_SELECTOR_LIMIT` (`src/index.mjs:643`). -/
def AUTO_SELECTOR_LIMIT : ℕ := 512

/-- `Math.random() * limit | 0` for a draw `r ∈ [0, 1)`. -/
def randInt (r : ℚ) (limit : ℕ) : ℕ := (⌊r * (limit : ℚ)⌋).toNat

/-- The fresh-selector draw `do { added = Math.random() * AUTO_SELECTOR_LIMIT
| 0; } while (next.includes(added))` (`src/index.mjs:1500–1503`): draws from
the stream starting at index `n` until the value is not in `excluded`,
returning it with the next unconsumed stream index. -/
def pickFresh (rng : ℕ → ℚ) (excluded : List ℕ) : ℕ → ℕ → Option (ℕ × ℕ)
  | _, 0 => none
  | n, fuel + 1 =>
    let added := randInt (rng n) AUTO_SELECTOR_LIMIT
    if added ∈ excluded then pickFresh rng excluded (n + 1) fuel
    else some (added, n + 1)

/-- The simulated-annealing loop over sparse selectors
(`src/index.mjs:1493–1520`).  State: best state `st`, the `current` selector
set with its `currentSize`, the `temperature`, and the next random-stream
index `n`.  One iteration draws a fresh unused selector, overwrites a
randomly chosen position, re-sorts, scores the candidate through
`updateBest`, computes
`rejected = Math.exp((currentSize - nextSize) / (6 * temperature)) <
Math.random()`, reports, moves to the candidate unless rejected, and cools
the temperature by `0.99`; the loop exits once the temperature is at or
below the target.  (The source's `taboo` map, line 1495, is never used.
The float comparison against the uniform draw is classically decidable.) -/
noncomputable def annealGo (calcSize : OptParams → ℚ)
    (progress : Option (ProgressInfo → Bool)) (rng : ℕ → ℚ) (targetT : ℚ)
    (pfFuel : ℕ) :
    ℕ → OptSt → List ℕ → ℚ → ℚ → ℕ → Except String (OptSt × List ℕ × ℚ × ℕ)
  | 0, _, _, _, _, _ => Except.error "out of fuel"
  | fuel + 1, st, current, currentSize, temperature, n =>
    if targetT < temperature then
      match pickFresh rng current n pfFuel with
      | none => Except.error "out of fuel"
      | some (added, n') =>
        let next := List.insertionSort (fun a b => a ≤ b)
          (current.set (randInt (rng n') current.length) added)
        let r := updateBest calcSize st { st.1 with sparseSelectors := some next }
        let rejected := @decide
          (Real.exp (((currentSize : ℝ) - (r.2.1 : ℝ)) / (6 * (temperature : ℝ))) <
            (rng (n' + 1) : ℝ)) (Classical.propDecidable _)
        (reportProgress progress "sparseSelectors"
            (some (Real.log (temperature : ℝ) / Real.log (targetT : ℝ)))
            { st.1 with sparseSelectors := some next } r.2.1 rejected r.1.1
            r.1.2 r.2.2).bind fun _ =>
          annealGo calcSize progress rng targetT pfFuel fuel r.1
            (if rejected then current else next)
            (if rejected then currentSize else r.2.1)
            (temperature * (99 / 100)) (n' + 2)
    else Except.ok (st, current, currentSize, n)

/-- `Packer.optimize` (`src/index.mjs:1338–1537`), returning the final
`(best, bestSize)` (the source also stamps them onto `this.options` and
reports the elapsed wall-clock time).  `level = level || 1`;
`searchFuel` / `pfFuel` / `annealFuel` bound the unbounded source loops. -/
noncomputable def optimize (calcSize : OptParams → ℚ)
    (defaults : PackerOptions) (maxAbbreviations : ℕ)
    (progress : Option (ProgressInfo → Bool)) (level : ℕ) (rng : ℕ → ℚ)
    (searchFuel pfFuel annealFuel : ℕ) : Except String OptSt := do
  let level := if level = 0 then 1 else level
  let best : OptParams := {}
  let bestSize := calcSize best
  let _ ← reportProgress progress "initial" none best bestSize false best
    bestSize true
  let st ← search level
    (fun i ratio st => updateBestAndReportProgress calcSize progress
      { st.1 with modelRecipBaseCount := some i } "modelRecipBaseCount" ratio st)
    1 1000 true [10, 20, 50, 100] searchFuel (best, bestSize)
  let st ← search level
    (fun i ratio st => updateBestAndReportProgress calcSize progress
      { st.1 with modelMaxCount := some i } "modelMaxCount" ratio st)
    1 32767 true [4, 5, 6] searchFuel st
  let st := if st.1.modelMaxCount = some defaults.modelMaxCount
    then ({ st.1 with modelMaxCount := none }, st.2) else st
  let st ← (List.range 2).foldlM
    (fun (st : OptSt) (i : ℕ) =>
      (updateBestAndReportProgress calcSize progress
          { st.1 with dynamicModels := some i } "dynamicModels"
          ((i : ℝ) / 2) st).map (fun r => r.2)) st
  let st := if st.1.dynamicModels = some defaults.dynamicModels
    then ({ st.1 with dynamicModels := none }, st.2) else st
  let st ← search level
    (fun i ratio st => updateBestAndReportProgress calcSize progress
      { st.1 with numAbbreviations := some i } "numAbbreviations" ratio st)
    0 maxAbbreviations false [0, 16, 32, 64] searchFuel st
  let st := if st.1.numAbbreviations = some defaults.numAbbreviations
    then ({ st.1 with numAbbreviations := none }, st.2) else st
  let targetT : ℚ := if 2 ≤ level then 1 / 10 else 9 / 10
  let r ← annealGo calcSize progress rng targetT pfFuel annealFuel st
    defaults.sparseSelectors st.2 1 0
  let st := r.1
  let st ← search level
    (fun i ratio st => updateBestAndReportProgress calcSize progress
      { st.1 with precision := some i } "precision" ratio st)
    1 21 false [12, 14, 16] searchFuel st
  let st := if st.1.precision = some defaults.precision
    then ({ st.1 with precision := none }, st.2) else st
  let st ← search level
    (fun i ratio st => updateBestAndReportProgress calcSize progress
      { st.1 with recipLearningRate := some i } "recipLearningRate" ratio st)
    1 99999 true [500, 750, 1000, 1250, 1500] searchFuel st
  let st := if st.1.recipLearningRate = some defaults.recipLearningRate
    then ({ st.1 with recipLearningRate := none }, st.2) else st
  pure st

/-- **C7** (amended): a progress callback requesting cancellation does not
make `Packer.optimize` return normally with the best found so far — the
`Error('search aborted')` thrown by `reportProgress`
(`src/index.mjs:1376`) propagates past `optimize`'s boundary, because no
`try`/`catch` inside `optimize` intercepts it: for every size oracle,
every option baseline, every level, every random stream and every fuel, a
callback that always answers `false` makes `optimize` end in the
`"search aborted"` error (it is the command-line driver, outside
`optimize`, that catches this error). -/
theorem optimize_abort_propagates (calcSize : OptParams → ℚ)
    (defaults : PackerOptions) (maxAbbreviations : ℕ) (level : ℕ)
    (rng : ℕ → ℚ) (searchFuel pfFuel annealFuel : ℕ) :
    optimize calcSize defaults maxAbbreviations (some (fun _ => false)) level
        rng searchFuel pfFuel annealFuel = Except.error "search aborted" := by
  rfl

/-- Counterexample to the claim as stated: at a concrete oracle, baseline
and stream, a cancelling callback makes `optimize` return the
`"search aborted"` error rather than a normal value. -/
theorem optimize_abort_propagates_cex :
    optimize (fun _ => 100) ⟨10, 0, 64, [0, 1, 2], 16, 500⟩ 64
        (some (fun _ => false)) 2 (fun _ => 1 / 2) 100 100 100 =
      Except.error "search aborted" := by
  rfl

/-- One `updateBest` call never increases `bestSize`. -/
theorem updateBest_fst_le (calcSize : OptParams → ℚ) (st : OptSt)
    (c : OptParams) : ((updateBest calcSize st c).1).2 ≤ st.2 := by
  simp only [updateBest]
  split
  · exact le_of_lt (by assumption)
  · exact le_rfl

/-- **C8**: every replacement of `best`/`bestSize` in a `Packer.optimize` run
goes through `updateBest` (`src/index.mjs:1385–1394`), so the claim reduces
to that function: across any sequence of trials the folded `bestSize` is
non-increasing, and the best state is replaced — with the `bestUpdated`
flag raised — exactly when the candidate's computed size is strictly
smaller than the current `bestSize`, and left untouched otherwise. -/
theorem bestSize_monotonic (calcSize : OptParams → ℚ) (st : OptSt)
    (trials : List OptParams) :
    (trials.foldl (fun s c => (updateBest calcSize s c).1) st).2 ≤ st.2 ∧
    (∀ c, calcSize c < st.2 →
      (updateBest calcSize st c).1 = (c, calcSize c) ∧
        (updateBest calcSize st c).2.2 = true) ∧
    (∀ c, ¬ calcSize c < st.2 →
      (updateBest calcSize st c).1 = st ∧
        (updateBest calcSize st c).2.2 = false) := by
  refine ⟨?_, ?_, ?_⟩
  · induction trials generalizing st with
    | nil => exact le_rfl
    | cons c cs ih =>
      exact le_trans (ih (updateBest calcSize st c).1)
        (updateBest_fst_le calcSize st c)
  · intro c h
    simp only [updateBest]
    rw [if_pos h]
    exact ⟨rfl, rfl⟩
  · intro c h
    simp only [updateBest]
    rw [if_neg h]
    exact ⟨rfl, rfl⟩

/-- A draw below `1` lands below the limit after `* limit | 0`. -/
theorem randInt_lt (r : ℚ) (limit : ℕ) (hl : 0 < limit) (hr : r < 1) :
    randInt r limit < limit := by
  have hlq : (0 : ℚ) < (limit : ℚ) := by exact_mod_cast hl
  have hmul : r * (limit : ℚ) < (limit : ℚ) := by nlinarith
  have h : ⌊r * (limit : ℚ)⌋ < (limit : ℤ) := Int.floor_lt.mpr (by
    exact_mod_cast hmul)
  unfold randInt
  omega

/-- The fresh-selector draw returns a value outside the excluded set that is
one of the stream's draws mapped through `* AUTO_SELECTOR_LIMIT | 0`. -/
theorem pickFresh_spec (rng : ℕ → ℚ) (excluded : List ℕ) :
    ∀ fuel n added n', pickFresh rng excluded n fuel = some (added, n') →
      added ∉ excluded ∧ ∃ k, added = randInt (rng k) AUTO_SELECTOR_LIMIT := by
  intro fuel
  induction fuel with
  | zero =>
    intro n added n' h
    exact absurd h (by simp [pickFresh])
  | succ fuel ih =>
    intro n added n' h
    simp only [pickFresh] at h
    split at h
    · exact ih (n + 1) added n' h
    · rename_i hmem
      simp only [Option.some.injEq, Prod.mk.injEq] at h
      obtain ⟨h1, h2⟩ := h
      subst h1
      exact ⟨hmem, n, rfl⟩

/-- **C9**: in the sparse-selector annealing pass, (a) the loop runs exactly
until the temperature falls to the target floor; (b) each trial with a
successful fresh draw replaces one randomly chosen selector with a new
random value that was not in the set (and, for a stream of draws in
`[0, 1)`, is below `AUTO_SELECTOR_LIMIT`), re-sorts the set (the candidate
is a sorted permutation of the overwritten set), scores it through
`updateBest`, rejects it exactly when
`exp((currentSize − nextSize) / (6 · temperature))` falls below a fresh
uniform draw, keeps `current` on rejection and moves to the candidate
otherwise, and multiplies the temperature by `0.99 = 99/100`; (c) a
candidate at least as good as the current one is never rejected — in
particular one improving the best score, since `bestSize ≤ currentSize`. -/
theorem sparse_selector_annealing (calcSize : OptParams → ℚ)
    (progress : Option (ProgressInfo → Bool)) (rng : ℕ → ℚ) (targetT : ℚ)
    (pfFuel fuel : ℕ) (st : OptSt) (current : List ℕ)
    (currentSize temperature : ℚ) (n : ℕ) :
    (temperature ≤ targetT →
      annealGo calcSize progress rng targetT pfFuel (fuel + 1) st current
          currentSize temperature n =
        Except.ok (st, current, currentSize, n)) ∧
    (∀ added n', targetT < temperature →
      pickFresh rng current n pfFuel = some (added, n') →
      added ∉ current ∧
      ((∀ i, rng i < 1) → added < AUTO_SELECTOR_LIMIT) ∧
      List.Sorted (fun a b => a ≤ b)
        (List.insertionSort (fun a b => a ≤ b)
          (current.set (randInt (rng n') current.length) added)) ∧
      (List.insertionSort (fun a b => a ≤ b)
          (current.set (randInt (rng n') current.length) added)).Perm
        (current.set (randInt (rng n') current.length) added) ∧
      annealGo calcSize progress rng targetT pfFuel (fuel + 1) st current
          currentSize temperature n =
        (let next := List.insertionSort (fun a b => a ≤ b)
            (current.set (randInt (rng n') current.length) added)
         let r := updateBest calcSize st
            { st.1 with sparseSelectors := some next }
         let rejected := @decide
            (Real.exp (((currentSize : ℝ) - (r.2.1 : ℝ)) /
                (6 * (temperature : ℝ))) < (rng (n' + 1) : ℝ))
            (Classical.propDecidable _)
         (reportProgress progress "sparseSelectors"
            (some (Real.log (temperature : ℝ) / Real.log (targetT : ℝ)))
            { st.1 with sparseSelectors := some next } r.2.1 rejected r.1.1
            r.1.2 r.2.2).bind fun _ =>
           annealGo calcSize progress rng targetT pfFuel fuel r.1
             (if rejected then current else next)
             (if rejected then currentSize else r.2.1)
             (temperature * (99 / 100)) (n' + 2))) ∧
    (∀ nextSize : ℚ, 0 < temperature → nextSize ≤ currentSize →
      rng n ≤ 1 →
      @decide
        (Real.exp (((currentSize : ℝ) - (nextSize : ℝ)) /
            (6 * (temperature : ℝ))) < (rng n : ℝ))
        (Classical.propDecidable _) = false) := by
  refine ⟨?_, ?_, ?_⟩
  · intro h
    simp only [annealGo]
    rw [if_neg (not_lt.mpr h)]
  · intro added n' hT hpick
    obtain ⟨hmem, k, hk⟩ := pickFresh_spec rng current pfFuel n added n' hpick
    refine ⟨hmem, ?_, ?_, ?_, ?_⟩
    · intro hr
      rw [hk]
      exact randInt_lt (rng k) AUTO_SELECTOR_LIMIT (by decide) (hr k)
    · exact List.sorted_insertionSort (fun a b => a ≤ b) _
    · exact List.perm_insertionSort (fun a b => a ≤ b) _
    · simp only [annealGo]
      rw [if_pos hT, hpick]
  · intro nextSize hT hle hr
    apply decide_eq_false
    apply not_lt.mpr
    have hTq : (0 : ℝ) < (temperature : ℝ) := by exact_mod_cast hT
    have hnum : (0 : ℝ) ≤ (currentSize : ℝ) - (nextSize : ℝ) := by
      rw [sub_nonneg]
      exact_mod_cast hle
    have hexp : (1 : ℝ) ≤
        Real.exp (((currentSize : ℝ) - (nextSize : ℝ)) /
          (6 * (temperature : ℝ))) := by
      rw [← Real.exp_zero]
      apply Real.exp_le_exp.mpr
      exact div_nonneg hnum (le_of_lt (by nlinarith))
    calc (rng n : ℝ) ≤ 1 := by exact_mod_cast hr
      _ ≤ _ := hexp

/-- The baseline selector list of `defaultSparseSelectors`
(`src/index.mjs:651`). -/
def baseSelectors : List ℕ := [0, 1, 2, 3, 6, 7, 13, 21, 25, 42, 50, 57]

/-- The `while (selectors.length < numContexts)` loop of
`defaultSparseSelectors` (`src/index.mjs:654–657`): each iteration draws
`added = Math.random() * AUTO_SELECTOR_LIMIT | 0` and pushes it unless it
is already present; fuel bounds the unbounded source loop. -/
def addRandomGo (rng : ℕ → ℚ) (numContexts : ℕ) :
    ℕ → ℕ → List ℕ → Option (List ℕ)
  | _, 0, selectors =>
    if selectors.length < numContexts then none else some selectors
  | n, fuel + 1, selectors =>
    if selectors.length < numContexts then
      let added := randInt (rng n) AUTO_SELECTOR_LIMIT
      addRandomGo rng numContexts (n + 1) fuel
        (if added ∈ selectors then selectors else selectors ++ [added])
    else some selectors

/-- `defaultSparseSelectors` (`src/index.mjs:646–661`): clamp `numContexts`
to `[0, 64]`, take that many baseline selectors, top up with fresh random
draws, and sort ascending (`sort((a, b) => a - b)`). -/
def defaultSparseSelectors (rng : ℕ → ℚ) (fuel : ℕ)
    (numContexts : ℤ := 12) : Option (List ℕ) :=
  let clamped := (max 0 (min 64 numContexts)).toNat
  (addRandomGo rng clamped 0 fuel (baseSelectors.take clamped)).map
    (List.insertionSort (fun a b => a ≤ b))

/-- The top-up loop preserves distinctness and the `< 512` bound, never grows
past `numContexts`, and succeeds only with exactly `numContexts`
selectors. -/
theorem addRandomGo_spec (rng : ℕ → ℚ) (numContexts : ℕ)
    (hr : ∀ i, rng i < 1) :
    ∀ fuel n selectors, selectors.Nodup →
      selectors.length ≤ numContexts →
      (∀ x ∈ selectors, x < AUTO_SELECTOR_LIMIT) →
      ∀ out, addRandomGo rng numContexts n fuel selectors = some out →
        out.Nodup ∧ out.length = numContexts ∧
          ∀ x ∈ out, x < AUTO_SELECTOR_LIMIT := by
  intro fuel
  induction fuel with
  | zero =>
    intro n selectors hnd hlen hlt out hout
    simp only [addRandomGo] at hout
    split at hout
    · exact absurd hout (by simp)
    · rename_i hge
      simp only [Option.some.injEq] at hout
      subst hout
      exact ⟨hnd, by omega, hlt⟩
  | succ fuel ih =>
    intro n selectors hnd hlen hlt out hout
    simp only [addRandomGo] at hout
    split at hout
    · rename_i hshort
      by_cases hmem : randInt (rng n) AUTO_SELECTOR_LIMIT ∈ selectors
      · rw [if_pos hmem] at hout
        exact ih (n + 1) selectors hnd hlen hlt out hout
      · rw [if_neg hmem] at hout
        refine ih (n + 1) _ ?_ ?_ ?_ out hout
        · rw [List.nodup_append]
          exact ⟨hnd, List.nodup_singleton _, by
            intro a ha hb
            rw [List.mem_singleton] at hb
            subst hb
            exact hmem ha⟩
        · rw [List.length_append, List.length_singleton]
          omega
        · intro x hx
          rw [List.mem_append, List.mem_singleton] at hx
          rcases hx with hx | hx
          · exact hlt x hx
          · subst hx
            exact randInt_lt (rng n) AUTO_SELECTOR_LIMIT (by decide) (hr n)
    · rename_i hge
      simp only [Option.some.injEq] at hout
      subst hout
      exact ⟨hnd, by omega, hlt⟩

/-- **C10**: whenever `defaultSparseSelectors` returns (the top-up loop's
random stream, drawing values in `[0, 1)`, found enough fresh values within
the given fuel), the returned list has exactly
`clamp(numContexts, 0, 64)` selectors, is strictly increasing (hence sorted
with no duplicates), and every selector is below
`AUTO_SELECTOR_LIMIT = 512`. -/
theorem defaultSparseSelectors_spec (rng : ℕ → ℚ) (fuel : ℕ)
    (numContexts : ℤ) (sel : List ℕ) (hr : ∀ i, rng i < 1)
    (hsel : defaultSparseSelectors rng fuel numContexts = some sel) :
    sel.length = (max 0 (min 64 numContexts)).toNat ∧
    List.Sorted (fun a b => a < b) sel ∧ sel.Nodup ∧
    ∀ x ∈ sel, x < AUTO_SELECTOR_LIMIT := by
  simp only [defaultSparseSelectors] at hsel
  rw [Option.map_eq_some'] at hsel
  obtain ⟨out, hout, hsort⟩ := hsel
  have hstart := addRandomGo_spec rng (max 0 (min 64 numContexts)).toNat hr
    fuel 0 (baseSelectors.take (max 0 (min 64 numContexts)).toNat)
    (List.Nodup.sublist (List.take_sublist _ _) (by decide))
    (by
      rw [List.length_take]
      omega)
    (by
      intro x hx
      have hxb : x ∈ baseSelectors := (List.take_sublist _ _).subset hx
      have hall : ∀ y ∈ baseSelectors, y < AUTO_SELECTOR_LIMIT := by decide
      exact hall x hxb)
    out hout
  obtain ⟨hnd, hlen, hlt⟩ := hstart
  have hperm : List.Perm (List.insertionSort (fun a b => a ≤ b) out) out :=
    List.perm_insertionSort (fun a b => a ≤ b) out
  subst hsort
  have hnd' : (List.insertionSort (fun a b => a ≤ b) out).Nodup :=
    hperm.nodup_iff.mpr hnd
  refine ⟨by rw [hperm.length_eq, hlen], ?_, hnd', ?_⟩
  · exact List.Sorted.lt_of_le
      (List.sorted_insertionSort (fun a b => a ≤ b) out) hnd'
  · intro x hx
    exact hlt x (hperm.subset hx)

theorem defaultSparseSelectors_spec_witness :
    (∀ i : ℕ, (fun _ : ℕ => (1 : ℚ) / 2) i < 1) ∧
    ([0, 1, 2, 3, 6, 7, 13, 21, 25, 42, 50, 57, 256] : List ℕ).length =
        (max 0 (min 64 (13 : ℤ))).toNat ∧
    List.Sorted (fun a b => a < b)
      ([0, 1, 2, 3, 6, 7, 13, 21, 25, 42, 50, 57, 256] : List ℕ) ∧
    ([0, 1, 2, 3, 6, 7, 13, 21, 25, 42, 50, 57, 256] : List ℕ).Nodup ∧
    ∀ x ∈ ([0, 1, 2, 3, 6, 7, 13, 21, 25, 42, 50, 57, 256] : List ℕ),
      x < AUTO_SELECTOR_LIMIT :=
  ⟨fun i => by norm_num,
   defaultSparseSelectors_spec (fun _ => 1 / 2) 1 13
     [0, 1, 2, 3, 6, 7, 13, 21, 25, 42, 50, 57, 256] (fun i => by norm_num)
     (by
       norm_num [defaultSparseSelectors, addRandomGo, randInt,
         AUTO_SELECTOR_LIMIT, baseSelectors]
       exact ⟨[0, 1, 2, 3, 6, 7, 13, 21, 25, 42, 50, 57, 256],
         ⟨by decide, by decide⟩, by decide⟩)⟩
